import Mathlib

/-!
# Verification development for the MQuAKE triplet-construction pipeline

Shallow embedding of the core of `triplet_creations/mquake_triplet_process.py`,
`triplet_creations/utils/mquake.py` and `triplet_creations/extract_multi_hop_data.py`:

* the batch expansion engine (`expand_triplet_set`, `_batch_entity_set_expansion`,
  `save_entity_expansion_checkpoint`, `expand_triplets_logistics`),
* the dataset splitter (`create_dataset_splits`),
* the record scanners (`extract_mquake_entities` and the `main` loop of
  `extract_multi_hop_data.py`),
* the call-site of `expand_triplets_logistics` inside `main`.

Modelling conventions:

* Entities, relations and qualifier payloads are opaque strings.
* Python `set` becomes `Finset`, Python `dict` becomes an association list with
  `pyDictUpdate` replicating `dict.update` (later entries override, insertion
  order of old keys kept, genuinely new keys appended).
* The remote fetcher (`retry_fetch(fetch_entity_triplet, entity, mode,
  max_retries, timeout)`) is abstracted as a function
  `Entity → Option FetchResult`; `none` models an unrecoverable error
  (retries exhausted), in which case the Python code calls `exit(-1)`,
  modelled as `Except.error (-1)`.
* The nondeterministic completion order of `as_completed` inside one batch is
  determinized to submission order; all batch-level accumulations are
  order-insensitive set unions for the properties proved here.
* File writes (`save_entity_expansion_checkpoint`) are recorded as checkpoint
  records in an event trace instead of being written to disk; log calls that
  claims refer to are recorded in a `logs` field.
-/

abbrev Entity := String
abbrev RelId := String
abbrev StrTriplet := Entity × RelId × Entity
abbrev Qual := String

/-- The elements of a finite set listed in ascending order (insertion sort,
so that concrete instances evaluate by kernel reduction). -/
def ascList {α : Type} [LinearOrder α] (s : Finset α) : List α :=
  Quotient.lift (List.insertionSort (fun a b => a ≤ b))
    (fun l1 l2 h => List.eq_of_perm_of_sorted
      ((List.perm_insertionSort _ l1).trans
        (List.Perm.trans (h : List.Perm l1 l2) (List.perm_insertionSort _ l2).symm))
      (List.sorted_insertionSort _ l1) (List.sorted_insertionSort _ l2)) s.val

/-- Deterministic stand-in for Python's iteration order over a `set`:
`list(s)` becomes the elements of the finite set sorted lexicographically. -/
def setToList (s : Finset String) : List String :=
  ascList s

instance {ε α : Type} [DecidableEq ε] [DecidableEq α] : DecidableEq (Except ε α) := fun a b =>
  match a, b with
  | .error e1, .error e2 =>
    if h : e1 = e2 then isTrue (by rw [h]) else isFalse (by intro hc; cases hc; exact h rfl)
  | .error _, .ok _ => isFalse (by intro hc; cases hc)
  | .ok _, .error _ => isFalse (by intro hc; cases hc)
  | .ok a1, .ok a2 =>
    if h : a1 = a2 then isTrue (by rw [h]) else isFalse (by intro hc; cases hc; exact h rfl)

/-- Python `dict.update`: existing keys keep their position but take the new
value; keys not present yet are appended in order. -/
def pyDictUpdate {α β : Type} [DecidableEq α] (d new : List (α × β)) : List (α × β) :=
  (d.map (fun kv =>
    match new.lookup kv.1 with
    | some v => (kv.1, v)
    | none => kv))
  ++ new.filter (fun kv => (d.lookup kv.1).isNone)

/-- Result of one `retry_fetch(fetch_entity_triplet, entity, ...)` call:
newfound triplets, forward dictionary, qualifier dictionary. -/
structure FetchResult where
  triplets : Finset StrTriplet
  forward : List (Entity × Entity)
  quals : List (StrTriplet × Qual)
deriving DecidableEq

/-- A fetcher abstracts `retry_fetch` with its configured mode, retries and
timeout; `none` is an unrecoverable error surfacing as an exception. -/
abbrev Fetcher := Entity → Option FetchResult

/-- Loop body of `_batch_entity_set_expansion`: collect the per-entity future
results, updating the three accumulators; the first failed future makes the
whole process `exit(-1)`. -/
def batchFetchGo (f : Fetcher) :
    List Entity → Finset StrTriplet → List (Entity × Entity) → List (StrTriplet × Qual) →
    Except Int (Finset StrTriplet × List (Entity × Entity) × List (StrTriplet × Qual))
  | [], tps, fwd, qs => .ok (tps, fwd, qs)
  | e :: rest, tps, fwd, qs =>
    match f e with
    | none => .error (-1)
    | some r => batchFetchGo f rest (tps ∪ r.triplets) (pyDictUpdate fwd r.forward)
        (pyDictUpdate qs r.quals)

/-- `_batch_entity_set_expansion` (mquake_triplet_process.py:169-223). -/
def batchEntitySetExpansion (f : Fetcher) (batch : List Entity) :
    Except Int (Finset StrTriplet × List (Entity × Entity) × List (StrTriplet × Qual)) :=
  batchFetchGo f batch ∅ [] []

/-- The snapshot written by `save_entity_expansion_checkpoint`
(mquake_triplet_process.py:226-260): the three checkpoint files. -/
structure Checkpoint where
  entitiesYetToProcess : Finset Entity
  tripletsProcessed : Finset StrTriplet
  qualifierDict : List (StrTriplet × Qual)
deriving DecidableEq

/-- Observation of one dispatched (nonempty, filtered) batch inside
`expand_triplet_set`: the batch, the triplets it fetched, the processed set
right after it, and the checkpoint persisted right after it. -/
structure BatchEvent where
  batch : List Entity
  batchTriplets : Finset StrTriplet
  processedAfter : Finset Entity
  checkpoint : Checkpoint
deriving DecidableEq

/-- State accumulated by the batch loop of one hop of `expand_triplet_set`. -/
structure ExpAccum where
  processed : Finset Entity
  triplets : Finset StrTriplet
  forward : List (Entity × Entity)
  quals : List (StrTriplet × Qual)
  newNeighbors : Finset Entity
  events : List BatchEvent
deriving DecidableEq

/-- Fuel-driven worker for `chunkList`; the fuel is the list length, which
bounds the number of chunks, so the `0` case is never reached from
`chunkList`. -/
def chunkListFuel {α : Type} (batchSize : Nat) : Nat → List α → List (List α)
  | 0, _ => []
  | _, [] => []
  | fuel + 1, a :: l =>
    (a :: l.take (batchSize - 1)) :: chunkListFuel batchSize fuel (l.drop (batchSize - 1))

/-- `range(0, len(l), batch_size)` slicing of the frontier list into batches;
each chunk holds the next `batchSize` elements (the final one may be short). -/
def chunkList {α : Type} (batchSize : Nat) (l : List α) : List (List α) :=
  chunkListFuel batchSize l.length l

/-- The inner batch loop of `expand_triplet_set`
(mquake_triplet_process.py:312-346).  `frontierList` is
`entities_to_process_per_hop`; each nonempty filtered batch is expanded, the
batch entities are marked processed, accumulators are merged, tails of the
batch triplets are added to `new_neighbors`, and a checkpoint of
`(set(entities_to_process_per_hop) | new_neighbors) - processed_entities`,
the accumulated triplets and the qualifier dictionary is persisted
(recorded as a `BatchEvent`). -/
def runBatchChunks (f : Fetcher) (frontierList : List Entity) :
    List (List Entity) → Finset Entity → Finset StrTriplet →
    List (Entity × Entity) → List (StrTriplet × Qual) → Finset Entity →
    Except Int ExpAccum
  | [], processed, tps, fwd, qs, nn =>
    .ok ⟨processed, tps, fwd, qs, nn, []⟩
  | chunk :: rest, processed, tps, fwd, qs, nn =>
    let batch := chunk.filter (fun e => e ∉ processed)
    if batch.isEmpty then
      runBatchChunks f frontierList rest processed tps fwd qs nn
    else
      match batchEntitySetExpansion f batch with
      | .error c => .error c
      | .ok (btps, bfwd, bqs) =>
        let processed2 := processed ∪ batch.toFinset
        let tps2 := tps ∪ btps
        let fwd2 := pyDictUpdate fwd bfwd
        let qs2 := pyDictUpdate qs bqs
        let nn2 := nn ∪ btps.image (fun t => t.2.2)
        let eytp := (frontierList.toFinset ∪ nn2) \ processed2
        match runBatchChunks f frontierList rest processed2 tps2 fwd2 qs2 nn2 with
        | .error c => .error c
        | .ok acc =>
          .ok { acc with
                events := ⟨batch, btps, processed2, ⟨eytp, tps2, qs2⟩⟩ :: acc.events }

/-- Observation of one executed hop of `expand_triplet_set`: the frontier list
it started from, the `new_neighbors` it discovered, and the processed set at
its end. -/
structure HopInfo where
  frontier : List Entity
  newNeighbors : Finset Entity
  processedAtEnd : Finset Entity
deriving DecidableEq

/-- Value of a completed `expand_triplet_set` run: the returned pair
(expanded triplets, qualifier dictionary) plus the trace of batch events,
per-hop information and the log lines relevant to the claims. -/
structure ExpRunResult where
  triplets : Finset StrTriplet
  quals : List (StrTriplet × Qual)
  events : List BatchEvent
  hopLog : List HopInfo
  logs : List String
deriving DecidableEq

/-- The hop loop of `expand_triplet_set` (mquake_triplet_process.py:302-356):
run the batches of the current frontier, stop early when a hop found no new
neighbors, otherwise continue from `list(new_neighbors - processed)`. -/
def runHops (f : Fetcher) (batchSize : Nat) :
    Nat → List Entity → Finset Entity → Finset StrTriplet →
    List (Entity × Entity) → List (StrTriplet × Qual) →
    Except Int ExpRunResult
  | 0, _, _, tps, _, qs => .ok ⟨tps, qs, [], [], []⟩
  | hopsLeft + 1, frontier, processed, tps, fwd, qs =>
    match runBatchChunks f frontier (chunkList batchSize frontier) processed tps fwd qs ∅ with
    | .error c => .error c
    | .ok acc =>
      let hinfo : HopInfo := ⟨frontier, acc.newNeighbors, acc.processed⟩
      if acc.newNeighbors = ∅ then
        .ok ⟨acc.triplets, acc.quals, acc.events, [hinfo], []⟩
      else
        match runHops f batchSize hopsLeft (setToList (acc.newNeighbors \ acc.processed))
            acc.processed acc.triplets acc.forward acc.quals with
        | .error c => .error c
        | .ok r =>
          .ok ⟨r.triplets, r.quals, acc.events ++ r.events, hinfo :: r.hopLog, r.logs⟩

/-- `expand_triplet_set` (mquake_triplet_process.py:263-360).  `target_size`
only appears in the initial log line; the numeric fetch parameters
(`max_workers`, `max_retries`, `timeout`) and the qualifier mode are folded
into the abstract fetcher `f`. -/
def expandTripletSet (f : Fetcher) (entitySet : Finset Entity) (targetSize : Nat)
    (expansionHops : Nat) (batchSize : Nat) : Except Int ExpRunResult :=
  match runHops f batchSize expansionHops (setToList entitySet) ∅ ∅ [] [] with
  | .error c => .error c
  | .ok r =>
    .ok { r with
          logs := ("Target size: " ++ toString targetSize ++ ", Expansion hops: "
            ++ toString expansionHops) :: r.logs }

example : chunkList 2 [1, 2, 3, 4, 5] = [[1, 2], [3, 4], [5]] := by decide

/-- Contents of the three checkpoint files at process start: `none` means the
file does not exist, `some` carries the parsed content
(`entities_yet_to_process.txt`, `triplets_proceessed_so_far.csv`,
`qualifiers.csv`). -/
structure CheckpointFiles where
  entFile : Option (Finset Entity)
  triFile : Option (List StrTriplet)
  qualFile : Option (List (StrTriplet × Qual))
deriving DecidableEq

/-- Errors of `expand_triplets_logistics`: the `RuntimeError` raised when only
some checkpoint files are present, and a process exit with the given code
propagated from the expansion engine. -/
inductive PipelineError where
  | checkpointInconsistency : PipelineError
  | fatalExit : Int → PipelineError
deriving DecidableEq

/-- Value of a completed `expand_triplets_logistics` call: final triplet set
and qualifier dictionary (after merging the loaded checkpoint data), the
expansion run's traces, and the derived entity/relation sets that are saved
at the end. -/
structure LogisticsResult where
  triplets : Finset StrTriplet
  quals : List (StrTriplet × Qual)
  runEvents : List BatchEvent
  hopLog : List HopInfo
  expandedEntities : Finset Entity
  expandedRelations : Finset RelId
deriving DecidableEq

/-- Tail of `expand_triplets_logistics` after the resume decision: run
`expand_triplet_set` on the chosen entity set, then merge the checkpointed
triplets and qualifiers into the final result
(mquake_triplet_process.py:592-636). -/
def logisticsRun (f : Fetcher) (entities : Finset Entity) (loadedTriplets : List StrTriplet)
    (loadedQuals : List (StrTriplet × Qual)) (targetEntityCount expansionHops batchSize : Nat) :
    Except PipelineError LogisticsResult :=
  match expandTripletSet f entities targetEntityCount expansionHops batchSize with
  | .error c => .error (.fatalExit c)
  | .ok r =>
    let finalTriplets := r.triplets ∪ loadedTriplets.toFinset
    let finalQuals := pyDictUpdate r.quals loadedQuals
    .ok { triplets := finalTriplets
          quals := finalQuals
          runEvents := r.events
          hopLog := r.hopLog
          expandedEntities :=
            finalTriplets.image (fun t => t.1) ∪ finalTriplets.image (fun t => t.2.2)
          expandedRelations := finalTriplets.image (fun t => t.2.1) }

/-- `expand_triplets_logistics` (mquake_triplet_process.py:531-636).
If all three checkpoint files exist the user is prompted
(`resumeAnswerYes`); if only some exist a `RuntimeError` is raised before
any expansion work; otherwise (or when the user declines) the run starts
fresh from the original entities. -/
def expandTripletsLogistics (f : Fetcher) (ogEntities : Finset Entity)
    (chk : CheckpointFiles) (resumeAnswerYes : Bool)
    (targetEntityCount expansionHops batchSize : Nat) :
    Except PipelineError LogisticsResult :=
  if chk.entFile.isSome && chk.triFile.isSome && chk.qualFile.isSome then
    if resumeAnswerYes then
      logisticsRun f (chk.entFile.getD ∅) (chk.triFile.getD []) (chk.qualFile.getD [])
        targetEntityCount expansionHops batchSize
    else
      logisticsRun f ogEntities [] [] targetEntityCount expansionHops batchSize
  else if chk.entFile.isSome || chk.triFile.isSome || chk.qualFile.isSome then
    .error .checkpointInconsistency
  else
    logisticsRun f ogEntities [] [] targetEntityCount expansionHops batchSize


/-- `min_examples_per_split` (mquake_triplet_process.py:463). -/
def minExamplesPerSplit : Nat := 3

/-- `relation_to_triplets[rel].append(i)`: append index `i` to the group of
relation `r`, creating the group at the end when `r` is new (Python
`defaultdict(list)` with dict insertion order). -/
def addToGroups (gs : List (RelId × List Nat)) (r : RelId) (i : Nat) :
    List (RelId × List Nat) :=
  if gs.any (fun g => g.1 = r) then
    gs.map (fun g => if g.1 = r then (g.1, g.2 ++ [i]) else g)
  else
    gs ++ [(r, [i])]

/-- The `for i, (head, rel, tail) in enumerate(triplets)` loop building
`relation_to_triplets`, with `k` the index of the next triplet. -/
def relationGroupsFrom (k : Nat) : List StrTriplet → List (RelId × List Nat) →
    List (RelId × List Nat)
  | [], gs => gs
  | t :: rest, gs => relationGroupsFrom (k + 1) rest (addToGroups gs t.2.1 k)

/-- `relation_to_triplets` built by `create_dataset_splits`
(mquake_triplet_process.py:441-447). -/
def relationGroups (triplets : List StrTriplet) : List (RelId × List Nat) :=
  relationGroupsFrom 0 triplets []

/-- Characterization helper: the indices (counted from `k`) of the triplets
whose relation is `r`, in order. -/
def relIndicesFrom (k : Nat) (r : RelId) : List StrTriplet → List Nat
  | [] => []
  | t :: rest =>
    if t.2.1 = r then k :: relIndicesFrom (k + 1) r rest
    else relIndicesFrom (k + 1) r rest

/-- One iteration of the per-relation loop of `create_dataset_splits`
(mquake_triplet_process.py:465-477): relations with fewer than
`min_examples_per_split * 3` triplets go wholly to train; otherwise the
shuffled indices are cut as valid `[:3]`, test `[3:6]`, train `[6:]`. -/
def phase1Step (shuffle : List Nat → List Nat) (acc : Finset Nat × Finset Nat × Finset Nat)
    (g : RelId × List Nat) : Finset Nat × Finset Nat × Finset Nat :=
  if g.2.length < minExamplesPerSplit * 3 then
    (acc.1 ∪ g.2.toFinset, acc.2.1, acc.2.2)
  else
    (acc.1 ∪ ((shuffle g.2).drop (minExamplesPerSplit * 2)).toFinset,
     acc.2.1 ∪ (((shuffle g.2).drop minExamplesPerSplit).take minExamplesPerSplit).toFinset,
     acc.2.2 ∪ ((shuffle g.2).take minExamplesPerSplit).toFinset)

/-- The per-relation allocation loop, folded over `relation_to_triplets`;
the accumulator is `(train_indices, test_indices, valid_indices)`. -/
def phase1 (shuffle : List Nat → List Nat) (gs : List (RelId × List Nat)) :
    Finset Nat × Finset Nat × Finset Nat :=
  gs.foldl (phase1Step shuffle) (∅, ∅, ∅)

/-- Python `int()` applied to a rational: truncation toward zero. -/
def pyInt (q : Rat) : Int :=
  if 0 ≤ q then q.floor else q.ceil

/-- `[triplets[i] for i in indices]` where `indices` is a Python set,
determinized to ascending index order. -/
def tripletsAt (triplets : List StrTriplet) (s : Finset Nat) : List StrTriplet :=
  (ascList s).filterMap (fun i => triplets[i]?)

/-- The split assignment and final triplet lists produced by
`create_dataset_splits`. -/
structure SplitResult where
  train : Finset Nat
  test : Finset Nat
  valid : Finset Nat
  trainTriplets : List StrTriplet
  testTriplets : List StrTriplet
  validTriplets : List StrTriplet
deriving DecidableEq

/-- `create_dataset_splits` (mquake_triplet_process.py:407-522).  The seeded
`random.shuffle` is abstracted as the `shuffle` parameter (a permutation of
its input).  On an empty triplet list the function raises `IndexError`
while logging `triplets[0]` (line 428), modelled as `none`.  The file
writes are modelled by the returned triplet lists. -/
def createDatasetSplits (shuffle : List Nat → List Nat) (triplets : List StrTriplet)
    (trainRatio testValidRatio : Rat) : Option SplitResult :=
  match triplets with
  | [] => none
  | _ :: _ =>
    let totalTriplets := triplets.length
    let trainSize : Int := pyInt ((totalTriplets : Rat) * trainRatio)
    let testValidSize : Int := (totalTriplets : Int) - trainSize
    let testSize : Int := pyInt ((testValidSize : Rat) * testValidRatio)
    let validSize : Int := testValidSize - testSize
    let p1 := phase1 shuffle (relationGroups triplets)
    let remaining := Finset.range totalTriplets \ (p1.1 ∪ p1.2.1 ∪ p1.2.2)
    let remainingList := shuffle (ascList remaining)
    let trainNeeded : Int := trainSize - p1.1.card
    let testNeeded : Int := testSize - p1.2.1.card
    let validNeeded : Int := validSize - p1.2.2.card
    let trainF :=
      if 0 < trainNeeded then p1.1 ∪ (remainingList.take trainNeeded.toNat).toFinset else p1.1
    let rem2 :=
      if 0 < trainNeeded then remainingList.drop trainNeeded.toNat else remainingList
    let testF :=
      if 0 < testNeeded ∧ rem2 ≠ [] then p1.2.1 ∪ (rem2.take testNeeded.toNat).toFinset
      else p1.2.1
    let rem3 :=
      if 0 < testNeeded ∧ rem2 ≠ [] then rem2.drop testNeeded.toNat else rem2
    let validF :=
      if 0 < validNeeded ∧ rem3 ≠ [] then p1.2.2 ∪ (rem3.take validNeeded.toNat).toFinset
      else p1.2.2
    some { train := trainF, test := testF, valid := validF
           trainTriplets := tripletsAt triplets trainF
           testTriplets := tripletsAt triplets testF
           validTriplets := tripletsAt triplets validF }

/-- The `target_new` object of a rewrite record, with its optional `id`. -/
structure RewriteTarget where
  id : Option String
deriving DecidableEq

/-- One entry of a record's `requested_rewrite` list. -/
structure RewriteRecord where
  relation_id : Option String
  target_new : Option RewriteTarget
deriving DecidableEq

/-- The `orig` object of an MQuAKE record; `none` fields model missing keys. -/
structure OrigField where
  triples : Option (List StrTriplet)
  triples_labeled : Option (List StrTriplet)
deriving DecidableEq

/-- One record of the MQuAKE JSON array; `none` models a missing key. -/
structure MQRecord where
  requested_rewrite : Option (List RewriteRecord)
  orig : Option OrigField
  case_id : Option Nat
  questions : Option (List String)
  answer : Option String
deriving DecidableEq

/-- How a scan of `extract_mquake_entities` fails on a malformed record:
the `assert` at utils/mquake.py:41-45, or the `KeyError` raised by the
unguarded `example["orig"]["triples_labeled"]` access at line 53. -/
inductive ExtractError where
  | assertionFailed : ExtractError
  | keyLookupFailed : ExtractError
deriving DecidableEq

/-- The four accumulating sets of `extract_mquake_entities`. -/
structure ExtractAcc where
  entities : Finset String
  relations : Finset String
  rr_entities : Finset String
  rr_relations : Finset String
deriving DecidableEq

/-- Python `str.startswith(pre)`, modelled on the character list underlying
the string. -/
def pyStartsWith (s pre : String) : Bool :=
  pre.data.isPrefixOf s.data

/-- The `for rewrite in example["requested_rewrite"]` loop
(utils/mquake.py:56-63). -/
def processRewrites (acc : ExtractAcc) : List RewriteRecord → ExtractAcc
  | [] => acc
  | rw :: rest =>
    let acc1 :=
      match rw.relation_id with
      | some rid =>
        if pyStartsWith rid "P" then { acc with rr_relations := insert rid acc.rr_relations }
        else acc
      | none => acc
    let acc2 :=
      match rw.target_new with
      | some tgt =>
        match tgt.id with
        | some tid =>
          if pyStartsWith tid "Q" then { acc1 with rr_entities := insert tid acc1.rr_entities }
          else acc1
        | none => acc1
      | none => acc1
    processRewrites acc2 rest

/-- The per-record loop of `extract_mquake_entities` (utils/mquake.py:39-63):
assert the record shape, collect heads/relations/tails of `orig.triples`,
touch `orig.triples_labeled` (debug logging, raises `KeyError` when the key
is missing), then scan the rewrites. -/
def extractMquakeEntitiesGo : List MQRecord → ExtractAcc → Except ExtractError ExtractAcc
  | [], acc => .ok acc
  | rec :: rest, acc =>
    match rec.requested_rewrite, rec.orig with
    | some rewrites, some orig =>
      match orig.triples with
      | none => .error .assertionFailed
      | some triples =>
        let entities2 := triples.foldl (fun s t => insert t.2.2 (insert t.1 s)) acc.entities
        let relations2 := triples.foldl (fun s t => insert t.2.1 s) acc.relations
        match orig.triples_labeled with
        | none => .error .keyLookupFailed
        | some _ =>
          let acc2 := processRewrites
            { acc with entities := entities2, relations := relations2 } rewrites
          extractMquakeEntitiesGo rest acc2
    | _, _ => .error .assertionFailed

/-- `extract_mquake_entities` (utils/mquake.py:9-72), returning
`(entities, relations, rr_entities, rr_relations)`. -/
def extractMquakeEntities (recs : List MQRecord) :
    Except ExtractError (Finset String × Finset String × Finset String × Finset String) :=
  match extractMquakeEntitiesGo recs ⟨∅, ∅, ∅, ∅⟩ with
  | .error e => .error e
  | .ok acc => .ok (acc.entities, acc.relations, acc.rr_entities, acc.rr_relations)

/-- One output record of `extract_multi_hop_data.py`. -/
structure ExtractedEntry where
  case_id : Option Nat
  questions : List String
  answer : Option String
  num_hops : Nat
  triples_labeled : List StrTriplet
deriving DecidableEq

/-- The record-scanning loop of `main` in `extract_multi_hop_data.py`
(lines 37-53): keep an entry only when `orig` and `orig.triples_labeled`
are present and the hop count is 3 or 4; records failing the guard are
passed over without any error. -/
def multiHopFilter : List MQRecord → List ExtractedEntry
  | [] => []
  | rec :: rest =>
    match rec.orig with
    | some orig =>
      match orig.triples_labeled with
      | some labeled =>
        if labeled.length = 3 ∨ labeled.length = 4 then
          { case_id := rec.case_id
            questions := rec.questions.getD []
            answer := rec.answer
            num_hops := labeled.length
            triples_labeled := labeled } :: multiHopFilter rest
        else
          multiHopFilter rest
      | none => multiHopFilter rest
    | none => multiHopFilter rest

/-- The command-line arguments of `mquake_triplet_process.py` that feed the
`expand_entities` / `full_pipeline` branch of `main`. -/
structure CliArgs where
  mode : String
  og_entity_output : String
  outPath_expanded_entity_set : String
  outPath_expanded_triplets : String
  outPath_expanded_relation_set : String
  checkpointing_triplet_expansion_path : String
  target_entity_count : Nat
  expansion_hops : Nat
  use_qualifiers_for_expansion : Bool
  entity_batch_size : Nat
  max_workers : Nat
  max_retries : Nat
  timeout : Nat
deriving DecidableEq

/-- The keyword arguments `main` hands to `expand_triplets_logistics`
(mquake_triplet_process.py:696-711). -/
structure ExpandLogisticsCall where
  path_og_entities : String
  path_expanded_entities : String
  path_triplets_w_qualifier : String
  path_expanded_relations : String
  checkpointing_triplet_expansion_path : String
  target_entity_count : Nat
  expansion_hops : Nat
  use_qualifiers_for_expansion : Bool
  entity_batch_size : Nat
  max_workers : Nat
  max_retries : Nat
  timeout : Nat
deriving DecidableEq

/-- Whether `main` enters the expansion branch (mquake_triplet_process.py:696). -/
def expandBranchTaken (a : CliArgs) : Bool :=
  a.mode = "expand_entities" || a.mode = "full_pipeline"

/-- The argument record `main` builds for `expand_triplets_logistics`
(mquake_triplet_process.py:698-711); note line 710 passes
`timeout = args.max_retries`. -/
def mainExpandLogisticsCall (a : CliArgs) : ExpandLogisticsCall :=
  { path_og_entities := a.og_entity_output
    path_expanded_entities := a.outPath_expanded_entity_set
    path_triplets_w_qualifier := a.outPath_expanded_triplets
    path_expanded_relations := a.outPath_expanded_relation_set
    checkpointing_triplet_expansion_path := a.checkpointing_triplet_expansion_path
    target_entity_count := a.target_entity_count
    expansion_hops := a.expansion_hops
    use_qualifiers_for_expansion := a.use_qualifiers_for_expansion
    entity_batch_size := a.entity_batch_size
    max_workers := a.max_workers
    max_retries := a.max_retries
    timeout := a.max_retries }

/-- The triplets a successful fetch of `e` yields (`∅` for a failing fetch;
entities in the processed set always fetched successfully). -/
def fetchTriplets (f : Fetcher) (e : Entity) : Finset StrTriplet :=
  match f e with
  | some r => r.triplets
  | none => ∅

/-- The qualifier entries a successful fetch of `e` yields. -/
def fetchQuals (f : Fetcher) (e : Entity) : List (StrTriplet × Qual) :=
  match f e with
  | some r => r.quals
  | none => []

/-- The tail entities of a triplet set (`new_tails`). -/
def tailsOf (s : Finset StrTriplet) : Finset Entity :=
  s.image (fun t => t.2.2)

/-- Well-formedness of a batch-event trace starting from processed set `p`:
each event's processed set contains the previous one (monotone growth), no
entity of a dispatched batch was processed before it, and every batch
entity is processed right after its batch. -/
def EventsOK (p : Finset Entity) : List BatchEvent → Prop
  | [] => True
  | ev :: rest =>
    p ⊆ ev.processedAfter ∧ (∀ e ∈ ev.batch, e ∉ p) ∧
    (∀ e ∈ ev.batch, e ∈ ev.processedAfter) ∧ EventsOK ev.processedAfter rest

/-- Number of triplets of `triplets` whose relation is `r`. -/
def countRel (triplets : List StrTriplet) (r : RelId) : Nat :=
  (triplets.filter (fun t => t.2.1 = r)).length

/-- Whether the triplet at index `i` has relation `r`. -/
def relAtIs (triplets : List StrTriplet) (r : RelId) (i : Nat) : Bool :=
  match triplets[i]? with
  | some t => t.2.1 = r
  | none => false

/-- The keys of a relation-group list are distinct (invariant of the Python
dict underlying `relation_to_triplets`). -/
def keysND (gs : List (RelId × List Nat)) : Prop :=
  (gs.map Prod.fst).Nodup

/-- The index list the group list associates to relation `r`, when present. -/
def groupOf (gs : List (RelId × List Nat)) (r : RelId) : Option (List Nat) :=
  (gs.find? (fun g => g.1 == r)).map Prod.snd

/-- Appending new indices to an optional existing group, mirroring what a
run of appends on `defaultdict(list)` produces. -/
def combineG (o : Option (List Nat)) (l : List Nat) : Option (List Nat) :=
  match o, l with
  | none, [] => none
  | none, l => some l
  | some g, l => some (g ++ l)

/-- Concrete fetcher used by witnesses: "Q1" has the single neighbor triplet
("Q1","P1","Q2") with one qualifier entry, every other entity has none. -/
def wFetch : Fetcher := fun e =>
  if e = "Q1" then
    some ⟨{("Q1", "P1", "Q2")}, [("Q1", "Q1")], [(("Q1", "P1", "Q2"), "qual")]⟩
  else
    some ⟨∅, [], []⟩

/-- Concrete fetcher whose fetch of "Q1" fails unrecoverably. -/
def wFetchFail : Fetcher := fun e =>
  if e = "Q1" then none else some ⟨∅, [], []⟩

/-- Checkpoint-file state for the resume counterexample: all three files
exist; the frontier file holds "Q1", the triplet file holds one previously
checkpointed triplet that `wFetch` never rediscovers. -/
def wChkFiles : CheckpointFiles :=
  { entFile := some {"Q1"}
    triFile := some [("Q9", "P9", "Q8")]
    qualFile := some [] }

/-- Checkpoint-file state with only the frontier file present. -/
def wChkPartial : CheckpointFiles :=
  { entFile := some {"Q1"}, triFile := none, qualFile := none }

/-- Ten concrete triplets sharing relation "P1" plus one lone "P2" triplet,
used to exercise the splitter. -/
def wTriplets : List StrTriplet :=
  [("a0", "P1", "b0"), ("a1", "P1", "b1"), ("a2", "P1", "b2"), ("a3", "P1", "b3"),
   ("a4", "P1", "b4"), ("a5", "P1", "b5"), ("a6", "P1", "b6"), ("a7", "P1", "b7"),
   ("a8", "P1", "b8"), ("a9", "P1", "b9"), ("c0", "P2", "d0")]

/-- The split the identity shuffle produces on `wTriplets` (the remaining
phase of the splitter adds nothing, so this is the per-relation phase
alone), used as the concrete instance in witnesses. -/
def wSplit : SplitResult :=
  ⟨(phase1 (fun l => l) (relationGroups wTriplets)).1,
   (phase1 (fun l => l) (relationGroups wTriplets)).2.1,
   (phase1 (fun l => l) (relationGroups wTriplets)).2.2,
   tripletsAt wTriplets (phase1 (fun l => l) (relationGroups wTriplets)).1,
   tripletsAt wTriplets (phase1 (fun l => l) (relationGroups wTriplets)).2.1,
   tripletsAt wTriplets (phase1 (fun l => l) (relationGroups wTriplets)).2.2⟩

/-- A record with every expected field present. -/
def wGoodRecord : MQRecord :=
  { requested_rewrite := some [⟨some "P5", some ⟨some "Q7"⟩⟩]
    orig := some { triples := some [("Q1", "P1", "Q2")],
                   triples_labeled := some [("A", "rel", "B")] }
    case_id := some 1
    questions := some ["q"]
    answer := some "B" }

/-- The completed run of `expandTripletSet wFetch {"Q1"} 5 2 2`, used as the
concrete instance in witnesses. -/
def wRunOk : ExpRunResult :=
  (expandTripletSet wFetch {"Q1"} 5 2 2).toOption.getD ⟨∅, [], [], [], []⟩

/-- The completed resumed run of `expandTripletsLogistics` on `wChkFiles`,
used as the concrete instance in witnesses and the resume counterexample. -/
def wLogisticsOk : LogisticsResult :=
  (expandTripletsLogistics wFetch ∅ wChkFiles true 5 1 2).toOption.getD
    ⟨∅, [], [], [], ∅, ∅⟩

/-- A record whose `orig` key is missing entirely. -/
def wNoOrigRecord : MQRecord :=
  { requested_rewrite := some []
    orig := none
    case_id := some 2
    questions := some []
    answer := none }

lemma chunkListFuel_flatten {α : Type} (batchSize : Nat) :
    ∀ (fuel : Nat) (l : List α), l.length ≤ fuel →
      (chunkListFuel batchSize fuel l).flatten = l := by
  intro fuel
  induction fuel with
  | zero =>
    intro l hl
    cases l with
    | nil => rfl
    | cons a t => simp at hl
  | succ n ih =>
    intro l hl
    cases l with
    | nil => rfl
    | cons a t =>
      simp only [chunkListFuel, List.flatten_cons]
      rw [ih (t.drop (batchSize - 1)) (by simp at hl ⊢; omega)]
      simp [List.take_append_drop]

lemma chunkList_flatten {α : Type} (batchSize : Nat) (l : List α) :
    (chunkList batchSize l).flatten = l :=
  chunkListFuel_flatten batchSize l.length l le_rfl

lemma mem_of_mem_chunkList {α : Type} {batchSize : Nat} {l : List α} {c : List α}
    (hc : c ∈ chunkList batchSize l) {e : α} (he : e ∈ c) : e ∈ l := by
  rw [← chunkList_flatten batchSize l]
  exact List.mem_flatten.mpr ⟨c, hc, he⟩

lemma chunkListFuel_length_le {α : Type} {batchSize : Nat} (hbs : 1 ≤ batchSize) :
    ∀ (fuel : Nat) (l : List α) (c : List α), c ∈ chunkListFuel batchSize fuel l →
      c.length ≤ batchSize := by
  intro fuel
  induction fuel with
  | zero => intro l c hc; simp [chunkListFuel] at hc
  | succ n ih =>
    intro l c hc
    cases l with
    | nil => simp [chunkListFuel] at hc
    | cons a t =>
      simp only [chunkListFuel, List.mem_cons] at hc
      rcases hc with rfl | hc
      · simp only [List.length_cons, List.length_take]
        omega
      · exact ih _ c hc

lemma chunkList_length_le {α : Type} {batchSize : Nat} (hbs : 1 ≤ batchSize)
    {l : List α} {c : List α} (hc : c ∈ chunkList batchSize l) : c.length ≤ batchSize :=
  chunkListFuel_length_le hbs l.length l c hc

lemma lookup_mem_of_eq_some {α β : Type} [DecidableEq α] {l : List (α × β)} {k : α} {v : β}
    (h : l.lookup k = some v) : (k, v) ∈ l := by
  induction l with
  | nil => simp [List.lookup] at h
  | cons a rest ih =>
    rw [List.lookup] at h
    by_cases hk : k = a.1
    · have hbeq : (k == a.1) = true := by simp [hk]
      rw [hbeq] at h
      simp only [Option.some.injEq] at h
      cases a with
      | mk a1 a2 =>
        simp only [List.mem_cons]
        left
        simp only at hk h
        rw [hk, h]
    · have hbeq : (k == a.1) = false := by simp [hk]
      rw [hbeq] at h
      exact List.mem_cons_of_mem a (ih h)

lemma pyDictUpdate_mem {α β : Type} [DecidableEq α] {d new : List (α × β)}
    {kv : α × β} (h : kv ∈ pyDictUpdate d new) : kv ∈ d ∨ kv ∈ new := by
  unfold pyDictUpdate at h
  rcases List.mem_append.mp h with h1 | h2
  · rcases List.mem_map.mp h1 with ⟨kv0, hkv0, heq⟩
    rcases hlook : new.lookup kv0.1 with _ | v
    · rw [hlook] at heq
      left
      rw [← heq]
      exact hkv0
    · rw [hlook] at heq
      right
      rw [← heq]
      exact lookup_mem_of_eq_some hlook
  · right
    exact List.mem_of_mem_filter h2

lemma batchFetchGo_error (f : Fetcher) :
    ∀ (batch : List Entity) tps fwd qs {e : Entity}, e ∈ batch → f e = none →
      batchFetchGo f batch tps fwd qs = .error (-1) := by
  intro batch
  induction batch with
  | nil => intro _ _ _ e he; simp at he
  | cons a rest ih =>
    intro tps fwd qs e he hfe
    rcases List.mem_cons.mp he with rfl | hrest
    · simp [batchFetchGo, hfe]
    · rcases hfa : f a with _ | r
      · simp [batchFetchGo, hfa]
      · simp only [batchFetchGo, hfa]
        exact ih _ _ _ hrest hfe

lemma batchFetchGo_ok_triplets (f : Fetcher) :
    ∀ (batch : List Entity) tps fwd qs {t w q},
      batchFetchGo f batch tps fwd qs = .ok (t, w, q) →
      t = tps ∪ batch.toFinset.biUnion (fetchTriplets f) := by
  intro batch
  induction batch with
  | nil =>
    intro tps fwd qs t w q h
    simp only [batchFetchGo] at h
    cases h
    simp
  | cons a rest ih =>
    intro tps fwd qs t w q h
    rcases hfa : f a with _ | r
    · simp [batchFetchGo, hfa] at h
    · simp only [batchFetchGo, hfa] at h
      have := ih _ _ _ h
      rw [this]
      rw [List.toFinset_cons, Finset.biUnion_insert]
      have hF : fetchTriplets f a = r.triplets := by simp [fetchTriplets, hfa]
      rw [hF]
      ext x
      simp only [Finset.mem_union]
      tauto

lemma batchFetchGo_ok_quals (f : Fetcher) :
    ∀ (batch : List Entity) tps fwd qs {t w q},
      batchFetchGo f batch tps fwd qs = .ok (t, w, q) →
      ∀ kv ∈ q, kv ∈ qs ∨ ∃ e ∈ batch, kv ∈ fetchQuals f e := by
  intro batch
  induction batch with
  | nil =>
    intro tps fwd qs t w q h kv hkv
    simp only [batchFetchGo] at h
    cases h
    exact Or.inl hkv
  | cons a rest ih =>
    intro tps fwd qs t w q h kv hkv
    rcases hfa : f a with _ | r
    · simp [batchFetchGo, hfa] at h
    · simp only [batchFetchGo, hfa] at h
      rcases ih _ _ _ h kv hkv with hin | ⟨e, he, hkve⟩
      · rcases pyDictUpdate_mem hin with hold | hnew
        · exact Or.inl hold
        · refine Or.inr ⟨a, List.mem_cons_self a rest, ?_⟩
          simp [fetchQuals, hfa]
          exact hnew
      · exact Or.inr ⟨e, List.mem_cons_of_mem a he, hkve⟩

lemma batchFetchGo_error_val (f : Fetcher) :
    ∀ (batch : List Entity) tps fwd qs {c : Int},
      batchFetchGo f batch tps fwd qs = .error c → c = -1 := by
  intro batch
  induction batch with
  | nil => intro tps fwd qs c h; simp [batchFetchGo] at h
  | cons a rest ih =>
    intro tps fwd qs c h
    rcases hfa : f a with _ | r
    · simp [batchFetchGo, hfa] at h
      omega
    · simp only [batchFetchGo, hfa] at h
      exact ih _ _ _ h

lemma batchFetchGo_ok_success (f : Fetcher) :
    ∀ (batch : List Entity) tps fwd qs {x},
      batchFetchGo f batch tps fwd qs = .ok x → ∀ e ∈ batch, (f e).isSome := by
  intro batch
  induction batch with
  | nil => intro _ _ _ _ _ e he; simp at he
  | cons a rest ih =>
    intro tps fwd qs x h e he
    rcases hfa : f a with _ | r
    · simp [batchFetchGo, hfa] at h
    · simp only [batchFetchGo, hfa] at h
      rcases List.mem_cons.mp he with rfl | hrest
      · simp [hfa]
      · exact ih _ _ _ h e hrest

lemma finset_biUnion_union {α β : Type} [DecidableEq α] [DecidableEq β]
    (s t : Finset α) (f : α → Finset β) :
    (s ∪ t).biUnion f = s.biUnion f ∪ t.biUnion f := by
  ext x
  simp [Finset.mem_biUnion, or_and_right, exists_or]

/-- Monotone well-formed batch-event chain from processed set `p` to
processed set `q`. -/
def EventsChainTo (p q : Finset Entity) : List BatchEvent → Prop
  | [] => p = q
  | ev :: rest =>
    p ⊆ ev.processedAfter ∧ (∀ e ∈ ev.batch, e ∉ p) ∧
    (∀ e ∈ ev.batch, e ∈ ev.processedAfter) ∧ EventsChainTo ev.processedAfter q rest

lemma runBatchChunks_nil (f : Fetcher) (fl : List Entity) (P : Finset Entity)
    (tps : Finset StrTriplet) (fwd : List (Entity × Entity)) (qs : List (StrTriplet × Qual))
    (nn : Finset Entity) :
    runBatchChunks f fl [] P tps fwd qs nn = .ok ⟨P, tps, fwd, qs, nn, []⟩ := rfl

lemma runBatchChunks_cons_skip (f : Fetcher) (fl chunk : List Entity)
    (rest : List (List Entity)) (P : Finset Entity) (tps : Finset StrTriplet)
    (fwd : List (Entity × Entity)) (qs : List (StrTriplet × Qual)) (nn : Finset Entity)
    (hemp : (chunk.filter (fun e => e ∉ P)).isEmpty) :
    runBatchChunks f fl (chunk :: rest) P tps fwd qs nn =
      runBatchChunks f fl rest P tps fwd qs nn := by
  simp only [runBatchChunks, hemp, if_true]

lemma runBatchChunks_cons_fail (f : Fetcher) (fl chunk : List Entity)
    (rest : List (List Entity)) (P : Finset Entity) (tps : Finset StrTriplet)
    (fwd : List (Entity × Entity)) (qs : List (StrTriplet × Qual)) (nn : Finset Entity)
    {c : Int}
    (hemp : ¬ (chunk.filter (fun e => e ∉ P)).isEmpty)
    (hbe : batchEntitySetExpansion f (chunk.filter (fun e => e ∉ P)) = .error c) :
    runBatchChunks f fl (chunk :: rest) P tps fwd qs nn = .error c := by
  simp only [runBatchChunks, hemp, if_false, hbe, Bool.false_eq_true]

lemma runBatchChunks_cons_step (f : Fetcher) (fl chunk : List Entity)
    (rest : List (List Entity)) (P : Finset Entity) (tps : Finset StrTriplet)
    (fwd : List (Entity × Entity)) (qs : List (StrTriplet × Qual)) (nn : Finset Entity)
    {btps : Finset StrTriplet} {bfwd : List (Entity × Entity)} {bqs : List (StrTriplet × Qual)}
    (hemp : ¬ (chunk.filter (fun e => e ∉ P)).isEmpty)
    (hbe : batchEntitySetExpansion f (chunk.filter (fun e => e ∉ P)) = .ok (btps, bfwd, bqs)) :
    runBatchChunks f fl (chunk :: rest) P tps fwd qs nn =
      match runBatchChunks f fl rest (P ∪ (chunk.filter (fun e => e ∉ P)).toFinset)
          (tps ∪ btps) (pyDictUpdate fwd bfwd) (pyDictUpdate qs bqs)
          (nn ∪ btps.image (fun t => t.2.2)) with
      | .error c => .error c
      | .ok acc =>
        .ok { acc with
              events := ⟨chunk.filter (fun e => e ∉ P), btps,
                P ∪ (chunk.filter (fun e => e ∉ P)).toFinset,
                ⟨(fl.toFinset ∪ (nn ∪ btps.image (fun t => t.2.2))) \
                  (P ∪ (chunk.filter (fun e => e ∉ P)).toFinset),
                 tps ∪ btps, pyDictUpdate qs bqs⟩⟩ :: acc.events } := by
  simp only [runBatchChunks, hemp, if_false, hbe, Bool.false_eq_true]

lemma runBatchChunks_processed_mono (f : Fetcher) (fl : List Entity) :
    ∀ (chunks : List (List Entity)) P tps fwd qs nn {acc : ExpAccum},
      runBatchChunks f fl chunks P tps fwd qs nn = .ok acc → P ⊆ acc.processed := by
  intro chunks
  induction chunks with
  | nil =>
    intro P tps fwd qs nn acc h
    rw [runBatchChunks_nil] at h
    cases h
    exact subset_rfl
  | cons chunk rest ih =>
    intro P tps fwd qs nn acc h
    by_cases hemp : (chunk.filter (fun e => e ∉ P)).isEmpty
    · rw [runBatchChunks_cons_skip f fl chunk rest P tps fwd qs nn hemp] at h
      exact ih _ _ _ _ _ h
    · rcases hbe : batchEntitySetExpansion f (chunk.filter (fun e => e ∉ P)) with c | ⟨btps, bfwd, bqs⟩
      · rw [runBatchChunks_cons_fail f fl chunk rest P tps fwd qs nn hemp hbe] at h
        cases h
      · rw [runBatchChunks_cons_step f fl chunk rest P tps fwd qs nn hemp hbe] at h
        rcases hrec : runBatchChunks f fl rest (P ∪ (chunk.filter (fun e => e ∉ P)).toFinset)
            (tps ∪ btps) (pyDictUpdate fwd bfwd) (pyDictUpdate qs bqs)
            (nn ∪ btps.image (fun t => t.2.2)) with c | acc2
        · rw [hrec] at h; cases h
        · rw [hrec] at h
          cases h
          have h1 := ih _ _ _ _ _ hrec
          intro x hx
          exact h1 (Finset.mem_union_left _ hx)

lemma runBatchChunks_covers (f : Fetcher) (fl : List Entity) :
    ∀ (chunks : List (List Entity)) P tps fwd qs nn {acc : ExpAccum},
      runBatchChunks f fl chunks P tps fwd qs nn = .ok acc →
      ∀ c ∈ chunks, ∀ e ∈ c, e ∈ acc.processed := by
  intro chunks
  induction chunks with
  | nil =>
    intro P tps fwd qs nn acc h c hc
    simp at hc
  | cons chunk rest ih =>
    intro P tps fwd qs nn acc h c hc e he
    by_cases hemp : (chunk.filter (fun e => e ∉ P)).isEmpty
    · rw [runBatchChunks_cons_skip f fl chunk rest P tps fwd qs nn hemp] at h
      rcases List.mem_cons.mp hc with hceq | hcrest
      · rw [hceq] at he
        by_cases heP : e ∈ P
        · exact runBatchChunks_processed_mono f fl _ _ _ _ _ _ h heP
        · exfalso
          have : e ∈ chunk.filter (fun x => x ∉ P) := by
            rw [List.mem_filter]
            exact ⟨he, by simpa using heP⟩
          rw [List.isEmpty_iff] at hemp
          rw [hemp] at this
          simp at this
      · exact ih _ _ _ _ _ h c hcrest e he
    · rcases hbe : batchEntitySetExpansion f (chunk.filter (fun e => e ∉ P)) with cd | ⟨btps, bfwd, bqs⟩
      · rw [runBatchChunks_cons_fail f fl chunk rest P tps fwd qs nn hemp hbe] at h
        cases h
      · rw [runBatchChunks_cons_step f fl chunk rest P tps fwd qs nn hemp hbe] at h
        rcases hrec : runBatchChunks f fl rest (P ∪ (chunk.filter (fun e => e ∉ P)).toFinset)
            (tps ∪ btps) (pyDictUpdate fwd bfwd) (pyDictUpdate qs bqs)
            (nn ∪ btps.image (fun t => t.2.2)) with cd | acc2
        · rw [hrec] at h; cases h
        · rw [hrec] at h
          cases h
          rcases List.mem_cons.mp hc with hceq | hcrest
          · rw [hceq] at he
            have hmono := runBatchChunks_processed_mono f fl _ _ _ _ _ _ hrec
            apply hmono
            by_cases heP : e ∈ P
            · exact Finset.mem_union_left _ heP
            · apply Finset.mem_union_right
              rw [List.mem_toFinset, List.mem_filter]
              exact ⟨he, by simpa using heP⟩
          · exact ih _ _ _ _ _ hrec c hcrest e he

lemma runBatchChunks_error_of_fail (f : Fetcher) (fl : List Entity) :
    ∀ (chunks : List (List Entity)) P tps fwd qs nn {e : Entity},
      (∃ c ∈ chunks, e ∈ c) → f e = none → e ∉ P →
      runBatchChunks f fl chunks P tps fwd qs nn = .error (-1) := by
  intro chunks
  induction chunks with
  | nil =>
    intro P tps fwd qs nn e he
    simp at he
  | cons chunk rest ih =>
    intro P tps fwd qs nn e he hfe heP
    rcases he with ⟨c, hc, hec⟩
    rcases List.mem_cons.mp hc with rfl | hcrest
    · have hbatch : e ∈ c.filter (fun x => x ∉ P) := by
        rw [List.mem_filter]
        exact ⟨hec, by simpa using heP⟩
      have hemp : ¬ (c.filter (fun x => x ∉ P)).isEmpty := by
        intro hcon
        rw [List.isEmpty_iff] at hcon
        rw [hcon] at hbatch
        simp at hbatch
      have hbe : batchEntitySetExpansion f (c.filter (fun x => x ∉ P)) = .error (-1) :=
        batchFetchGo_error f _ _ _ _ hbatch hfe
      exact runBatchChunks_cons_fail f fl c rest P tps fwd qs nn hemp hbe
    · by_cases hemp : (chunk.filter (fun x => x ∉ P)).isEmpty
      · rw [runBatchChunks_cons_skip f fl chunk rest P tps fwd qs nn hemp]
        exact ih _ _ _ _ _ ⟨c, hcrest, hec⟩ hfe heP
      · rcases hbe : batchEntitySetExpansion f (chunk.filter (fun x => x ∉ P)) with cd | ⟨btps, bfwd, bqs⟩
        · have hcd : cd = -1 := batchFetchGo_error_val f _ _ _ _ hbe
          rw [hcd] at hbe
          exact runBatchChunks_cons_fail f fl chunk rest P tps fwd qs nn hemp hbe
        · rw [runBatchChunks_cons_step f fl chunk rest P tps fwd qs nn hemp hbe]
          have heP2 : e ∉ P ∪ (chunk.filter (fun x => x ∉ P)).toFinset := by
            intro hcon
            rcases Finset.mem_union.mp hcon with h1 | h2
            · exact heP h1
            · rw [List.mem_toFinset] at h2
              have := batchFetchGo_ok_success f _ _ _ _ hbe e h2
              rw [hfe] at this
              simp at this
          rw [ih _ _ _ _ _ ⟨c, hcrest, hec⟩ hfe heP2]

lemma runBatchChunks_chain (f : Fetcher) (fl : List Entity) :
    ∀ (chunks : List (List Entity)) P tps fwd qs nn {acc : ExpAccum},
      runBatchChunks f fl chunks P tps fwd qs nn = .ok acc →
      EventsChainTo P acc.processed acc.events := by
  intro chunks
  induction chunks with
  | nil =>
    intro P tps fwd qs nn acc h
    rw [runBatchChunks_nil] at h
    cases h
    rfl
  | cons chunk rest ih =>
    intro P tps fwd qs nn acc h
    by_cases hemp : (chunk.filter (fun e => e ∉ P)).isEmpty
    · rw [runBatchChunks_cons_skip f fl chunk rest P tps fwd qs nn hemp] at h
      exact ih _ _ _ _ _ h
    · rcases hbe : batchEntitySetExpansion f (chunk.filter (fun e => e ∉ P)) with cd | ⟨btps, bfwd, bqs⟩
      · rw [runBatchChunks_cons_fail f fl chunk rest P tps fwd qs nn hemp hbe] at h
        cases h
      · rw [runBatchChunks_cons_step f fl chunk rest P tps fwd qs nn hemp hbe] at h
        rcases hrec : runBatchChunks f fl rest (P ∪ (chunk.filter (fun e => e ∉ P)).toFinset)
            (tps ∪ btps) (pyDictUpdate fwd bfwd) (pyDictUpdate qs bqs)
            (nn ∪ btps.image (fun t => t.2.2)) with cd | acc2
        · rw [hrec] at h; cases h
        · rw [hrec] at h
          cases h
          refine ⟨Finset.subset_union_left, ?_, ?_, ih _ _ _ _ _ hrec⟩
          · intro e hebatch
            have := List.of_mem_filter hebatch
            simpa using this
          · intro e hebatch
            apply Finset.mem_union_right
            rw [List.mem_toFinset]
            exact hebatch

lemma runBatchChunks_triplets (f : Fetcher) (fl : List Entity) :
    ∀ (chunks : List (List Entity)) P tps fwd qs nn {acc : ExpAccum},
      runBatchChunks f fl chunks P tps fwd qs nn = .ok acc →
      tps = P.biUnion (fetchTriplets f) →
      acc.triplets = acc.processed.biUnion (fetchTriplets f) ∧
      ∀ ev ∈ acc.events,
        ev.checkpoint.tripletsProcessed = ev.processedAfter.biUnion (fetchTriplets f) := by
  intro chunks
  induction chunks with
  | nil =>
    intro P tps fwd qs nn acc h htps
    rw [runBatchChunks_nil] at h
    cases h
    exact ⟨htps, by intro ev hev; simp at hev⟩
  | cons chunk rest ih =>
    intro P tps fwd qs nn acc h htps
    by_cases hemp : (chunk.filter (fun e => e ∉ P)).isEmpty
    · rw [runBatchChunks_cons_skip f fl chunk rest P tps fwd qs nn hemp] at h
      exact ih _ _ _ _ _ h htps
    · rcases hbe : batchEntitySetExpansion f (chunk.filter (fun e => e ∉ P)) with cd | ⟨btps, bfwd, bqs⟩
      · rw [runBatchChunks_cons_fail f fl chunk rest P tps fwd qs nn hemp hbe] at h
        cases h
      · rw [runBatchChunks_cons_step f fl chunk rest P tps fwd qs nn hemp hbe] at h
        rcases hrec : runBatchChunks f fl rest (P ∪ (chunk.filter (fun e => e ∉ P)).toFinset)
            (tps ∪ btps) (pyDictUpdate fwd bfwd) (pyDictUpdate qs bqs)
            (nn ∪ btps.image (fun t => t.2.2)) with cd | acc2
        · rw [hrec] at h; cases h
        · rw [hrec] at h
          cases h
          have hbt : btps = (chunk.filter (fun e => e ∉ P)).toFinset.biUnion (fetchTriplets f) := by
            have := batchFetchGo_ok_triplets f _ _ _ _ hbe
            simpa using this
          have htps2 : tps ∪ btps =
              (P ∪ (chunk.filter (fun e => e ∉ P)).toFinset).biUnion (fetchTriplets f) := by
            rw [finset_biUnion_union, ← htps, hbt]
          rcases ih _ _ _ _ _ hrec htps2 with ⟨hmain, hevents⟩
          refine ⟨hmain, ?_⟩
          intro ev hev
          rcases List.mem_cons.mp hev with hev1 | hev2
          · rw [hev1]
            exact htps2
          · exact hevents ev hev2

set_option maxHeartbeats 1000000 in
lemma runBatchChunks_eytp (f : Fetcher) (fl : List Entity) (E0 : Finset Entity) :
    ∀ (chunks : List (List Entity)) P tps fwd qs nn {acc : ExpAccum},
      runBatchChunks f fl chunks P tps fwd qs nn = .ok acc →
      (∀ c ∈ chunks, ∀ e ∈ c, e ∈ fl) →
      fl.toFinset ∪ nn ∪ P = E0 ∪ tailsOf tps ∪ P →
      fl.toFinset ∪ acc.newNeighbors ∪ acc.processed =
        E0 ∪ tailsOf acc.triplets ∪ acc.processed ∧
      ∀ ev ∈ acc.events,
        ev.checkpoint.entitiesYetToProcess =
          (E0 ∪ tailsOf ev.checkpoint.tripletsProcessed) \ ev.processedAfter := by
  intro chunks
  induction chunks with
  | nil =>
    intro P tps fwd qs nn acc h hch hinv
    rw [runBatchChunks_nil] at h
    cases h
    exact ⟨hinv, by intro ev hev; simp at hev⟩
  | cons chunk rest ih =>
    intro P tps fwd qs nn acc h hch hinv
    by_cases hemp : (chunk.filter (fun e => e ∉ P)).isEmpty
    · rw [runBatchChunks_cons_skip f fl chunk rest P tps fwd qs nn hemp] at h
      exact ih _ _ _ _ _ h (fun c hc => hch c (List.mem_cons_of_mem _ hc)) hinv
    · rcases hbe : batchEntitySetExpansion f (chunk.filter (fun e => e ∉ P)) with cd | ⟨btps, bfwd, bqs⟩
      · rw [runBatchChunks_cons_fail f fl chunk rest P tps fwd qs nn hemp hbe] at h
        cases h
      · rw [runBatchChunks_cons_step f fl chunk rest P tps fwd qs nn hemp hbe] at h
        rcases hrec : runBatchChunks f fl rest (P ∪ (chunk.filter (fun e => e ∉ P)).toFinset)
            (tps ∪ btps) (pyDictUpdate fwd bfwd) (pyDictUpdate qs bqs)
            (nn ∪ btps.image (fun t => t.2.2)) with cd | acc2
        · rw [hrec] at h; cases h
        · rw [hrec] at h
          cases h
          have hbsub : ∀ x ∈ (chunk.filter (fun e => e ∉ P)).toFinset, x ∈ fl.toFinset := by
            intro x hx
            rw [List.mem_toFinset] at hx
            rw [List.mem_toFinset]
            exact hch chunk (List.mem_cons_self _ _) x (List.mem_of_mem_filter hx)
          have htails : tailsOf (tps ∪ btps) = tailsOf tps ∪ btps.image (fun t => t.2.2) := by
            unfold tailsOf
            exact Finset.image_union tps btps
          have hinv2 : fl.toFinset ∪ (nn ∪ btps.image (fun t => t.2.2)) ∪
              (P ∪ (chunk.filter (fun e => e ∉ P)).toFinset) =
              E0 ∪ tailsOf (tps ∪ btps) ∪
              (P ∪ (chunk.filter (fun e => e ∉ P)).toFinset) := by
            rw [htails]
            ext x
            have h1 := Finset.ext_iff.mp hinv x
            simp only [Finset.mem_union] at h1 ⊢
            have h2 := hbsub x
            by_cases hx : x ∈ (chunk.filter (fun e => e ∉ P)).toFinset
            · have := h2 hx
              tauto
            · tauto
          rcases ih _ _ _ _ _ hrec (fun c hc => hch c (List.mem_cons_of_mem _ hc)) hinv2 with
            ⟨hmain, hevents⟩
          refine ⟨hmain, ?_⟩
          intro ev hev
          rcases List.mem_cons.mp hev with hev1 | hev2
          · rw [hev1]
            simp only
            ext x
            have h1 := Finset.ext_iff.mp hinv2 x
            simp only [Finset.mem_union, Finset.mem_sdiff] at h1 ⊢
            constructor
            · rintro ⟨hmem, hnot⟩
              constructor
              · rcases hmem with hfl | hnn
                · tauto
                · tauto
              · exact hnot
            · rintro ⟨hmem, hnot⟩
              constructor
              · tauto
              · exact hnot
          · exact hevents ev hev2

lemma runBatchChunks_quals (f : Fetcher) (fl : List Entity) :
    ∀ (chunks : List (List Entity)) P tps fwd qs nn {acc : ExpAccum},
      runBatchChunks f fl chunks P tps fwd qs nn = .ok acc →
      (∀ kv ∈ qs, ∃ e ∈ P, kv ∈ fetchQuals f e) →
      (∀ kv ∈ acc.quals, ∃ e ∈ acc.processed, kv ∈ fetchQuals f e) ∧
      ∀ ev ∈ acc.events, ∀ kv ∈ ev.checkpoint.qualifierDict,
        ∃ e ∈ ev.processedAfter, kv ∈ fetchQuals f e := by
  intro chunks
  induction chunks with
  | nil =>
    intro P tps fwd qs nn acc h hq
    rw [runBatchChunks_nil] at h
    cases h
    exact ⟨hq, by intro ev hev; simp at hev⟩
  | cons chunk rest ih =>
    intro P tps fwd qs nn acc h hq
    by_cases hemp : (chunk.filter (fun e => e ∉ P)).isEmpty
    · rw [runBatchChunks_cons_skip f fl chunk rest P tps fwd qs nn hemp] at h
      exact ih _ _ _ _ _ h hq
    · rcases hbe : batchEntitySetExpansion f (chunk.filter (fun e => e ∉ P)) with cd | ⟨btps, bfwd, bqs⟩
      · rw [runBatchChunks_cons_fail f fl chunk rest P tps fwd qs nn hemp hbe] at h
        cases h
      · rw [runBatchChunks_cons_step f fl chunk rest P tps fwd qs nn hemp hbe] at h
        rcases hrec : runBatchChunks f fl rest (P ∪ (chunk.filter (fun e => e ∉ P)).toFinset)
            (tps ∪ btps) (pyDictUpdate fwd bfwd) (pyDictUpdate qs bqs)
            (nn ∪ btps.image (fun t => t.2.2)) with cd | acc2
        · rw [hrec] at h; cases h
        · rw [hrec] at h
          cases h
          have hq2 : ∀ kv ∈ pyDictUpdate qs bqs,
              ∃ e ∈ P ∪ (chunk.filter (fun e => e ∉ P)).toFinset, kv ∈ fetchQuals f e := by
            intro kv hkv
            rcases pyDictUpdate_mem hkv with hold | hnew
            · rcases hq kv hold with ⟨e, heP, hkve⟩
              exact ⟨e, Finset.mem_union_left _ heP, hkve⟩
            · have := batchFetchGo_ok_quals f _ _ _ _ hbe kv hnew
              rcases this with hfalse | ⟨e, hebatch, hkve⟩
              · simp at hfalse
              · refine ⟨e, Finset.mem_union_right _ ?_, hkve⟩
                rw [List.mem_toFinset]
                exact hebatch
          rcases ih _ _ _ _ _ hrec hq2 with ⟨hmain, hevents⟩
          refine ⟨hmain, ?_⟩
          intro ev hev
          rcases List.mem_cons.mp hev with hev1 | hev2
          · rw [hev1]
            exact hq2
          · exact hevents ev hev2

lemma runBatchChunks_batch_le (f : Fetcher) (fl : List Entity) (batchSize : Nat) :
    ∀ (chunks : List (List Entity)) P tps fwd qs nn {acc : ExpAccum},
      runBatchChunks f fl chunks P tps fwd qs nn = .ok acc →
      (∀ c ∈ chunks, c.length ≤ batchSize) →
      ∀ ev ∈ acc.events, ev.batch.length ≤ batchSize := by
  intro chunks
  induction chunks with
  | nil =>
    intro P tps fwd qs nn acc h hlen ev hev
    rw [runBatchChunks_nil] at h
    cases h
    simp at hev
  | cons chunk rest ih =>
    intro P tps fwd qs nn acc h hlen ev hev
    by_cases hemp : (chunk.filter (fun e => e ∉ P)).isEmpty
    · rw [runBatchChunks_cons_skip f fl chunk rest P tps fwd qs nn hemp] at h
      exact ih _ _ _ _ _ h (fun c hc => hlen c (List.mem_cons_of_mem _ hc)) ev hev
    · rcases hbe : batchEntitySetExpansion f (chunk.filter (fun e => e ∉ P)) with cd | ⟨btps, bfwd, bqs⟩
      · rw [runBatchChunks_cons_fail f fl chunk rest P tps fwd qs nn hemp hbe] at h
        cases h
      · rw [runBatchChunks_cons_step f fl chunk rest P tps fwd qs nn hemp hbe] at h
        rcases hrec : runBatchChunks f fl rest (P ∪ (chunk.filter (fun e => e ∉ P)).toFinset)
            (tps ∪ btps) (pyDictUpdate fwd bfwd) (pyDictUpdate qs bqs)
            (nn ∪ btps.image (fun t => t.2.2)) with cd | acc2
        · rw [hrec] at h; cases h
        · rw [hrec] at h
          cases h
          rcases List.mem_cons.mp hev with hev1 | hev2
          · rw [hev1]
            simp only
            calc (chunk.filter (fun e => e ∉ P)).length ≤ chunk.length :=
                  List.length_filter_le _ _
              _ ≤ batchSize := hlen chunk (List.mem_cons_self _ _)
          · exact ih _ _ _ _ _ hrec (fun c hc => hlen c (List.mem_cons_of_mem _ hc)) ev hev2

lemma eventsChainTo_append {q r : Finset Entity} {l2 : List BatchEvent} :
    ∀ (l1 : List BatchEvent) (p : Finset Entity), EventsChainTo p q l1 →
      EventsChainTo q r l2 → EventsChainTo p r (l1 ++ l2) := by
  intro l1
  induction l1 with
  | nil =>
    intro p h1 h2
    unfold EventsChainTo at h1
    rw [h1]
    simpa using h2
  | cons ev rest ih =>
    intro p h1 h2
    rcases h1 with ⟨hsub, hfresh, hmark, hrest⟩
    exact ⟨hsub, hfresh, hmark, ih _ hrest h2⟩

lemma runHops_zero (f : Fetcher) (batchSize : Nat) (frontier : List Entity)
    (P : Finset Entity) (tps : Finset StrTriplet) (fwd : List (Entity × Entity))
    (qs : List (StrTriplet × Qual)) :
    runHops f batchSize 0 frontier P tps fwd qs = .ok ⟨tps, qs, [], [], []⟩ := rfl

lemma runHops_succ_fail (f : Fetcher) (batchSize n : Nat) (frontier : List Entity)
    (P : Finset Entity) (tps : Finset StrTriplet) (fwd : List (Entity × Entity))
    (qs : List (StrTriplet × Qual)) {c : Int}
    (hrb : runBatchChunks f frontier (chunkList batchSize frontier) P tps fwd qs ∅ = .error c) :
    runHops f batchSize (n + 1) frontier P tps fwd qs = .error c := by
  simp only [runHops, hrb]

lemma runHops_succ_stop (f : Fetcher) (batchSize n : Nat) (frontier : List Entity)
    (P : Finset Entity) (tps : Finset StrTriplet) (fwd : List (Entity × Entity))
    (qs : List (StrTriplet × Qual)) {acc : ExpAccum}
    (hrb : runBatchChunks f frontier (chunkList batchSize frontier) P tps fwd qs ∅ = .ok acc)
    (hnn : acc.newNeighbors = ∅) :
    runHops f batchSize (n + 1) frontier P tps fwd qs =
      .ok ⟨acc.triplets, acc.quals, acc.events, [⟨frontier, acc.newNeighbors, acc.processed⟩], []⟩ := by
  simp only [runHops, hrb, hnn, if_true]

lemma runHops_succ_cont (f : Fetcher) (batchSize n : Nat) (frontier : List Entity)
    (P : Finset Entity) (tps : Finset StrTriplet) (fwd : List (Entity × Entity))
    (qs : List (StrTriplet × Qual)) {acc : ExpAccum}
    (hrb : runBatchChunks f frontier (chunkList batchSize frontier) P tps fwd qs ∅ = .ok acc)
    (hnn : ¬ acc.newNeighbors = ∅) :
    runHops f batchSize (n + 1) frontier P tps fwd qs =
      match runHops f batchSize n (setToList (acc.newNeighbors \ acc.processed))
          acc.processed acc.triplets acc.forward acc.quals with
      | .error c => .error c
      | .ok r =>
        .ok ⟨r.triplets, r.quals, acc.events ++ r.events,
          ⟨frontier, acc.newNeighbors, acc.processed⟩ :: r.hopLog, r.logs⟩ := by
  simp only [runHops, hrb, hnn, if_false]

lemma runHops_hopLog_le (f : Fetcher) (batchSize : Nat) :
    ∀ (n : Nat) (frontier : List Entity) P tps fwd qs {r : ExpRunResult},
      runHops f batchSize n frontier P tps fwd qs = .ok r → r.hopLog.length ≤ n := by
  intro n
  induction n with
  | zero =>
    intro frontier P tps fwd qs r h
    rw [runHops_zero] at h
    cases h
    simp
  | succ n ih =>
    intro frontier P tps fwd qs r h
    rcases hrb : runBatchChunks f frontier (chunkList batchSize frontier) P tps fwd qs ∅
      with c | acc
    · rw [runHops_succ_fail f batchSize n frontier P tps fwd qs hrb] at h
      cases h
    · by_cases hnn : acc.newNeighbors = ∅
      · rw [runHops_succ_stop f batchSize n frontier P tps fwd qs hrb hnn] at h
        cases h
        simp
      · rw [runHops_succ_cont f batchSize n frontier P tps fwd qs hrb hnn] at h
        rcases hrec : runHops f batchSize n (setToList (acc.newNeighbors \ acc.processed))
            acc.processed acc.triplets acc.forward acc.quals with c | r2
        · rw [hrec] at h; cases h
        · rw [hrec] at h
          cases h
          have := ih _ _ _ _ _ hrec
          simp only [List.length_cons]
          omega

lemma runHops_hopLog_ne_nil (f : Fetcher) (batchSize : Nat) (n : Nat)
    (frontier : List Entity) (P : Finset Entity) (tps : Finset StrTriplet)
    (fwd : List (Entity × Entity)) (qs : List (StrTriplet × Qual)) {r : ExpRunResult}
    (hn : 1 ≤ n) (h : runHops f batchSize n frontier P tps fwd qs = .ok r) :
    r.hopLog ≠ [] := by
  rcases n with _ | m
  · omega
  · rcases hrb : runBatchChunks f frontier (chunkList batchSize frontier) P tps fwd qs ∅
      with c | acc
    · rw [runHops_succ_fail f batchSize m frontier P tps fwd qs hrb] at h
      cases h
    · by_cases hnn : acc.newNeighbors = ∅
      · rw [runHops_succ_stop f batchSize m frontier P tps fwd qs hrb hnn] at h
        cases h
        simp
      · rw [runHops_succ_cont f batchSize m frontier P tps fwd qs hrb hnn] at h
        rcases hrec : runHops f batchSize m (setToList (acc.newNeighbors \ acc.processed))
            acc.processed acc.triplets acc.forward acc.quals with c | r2
        · rw [hrec] at h; cases h
        · rw [hrec] at h
          cases h
          simp

lemma runHops_nonfinal_ne (f : Fetcher) (batchSize : Nat) :
    ∀ (n : Nat) (frontier : List Entity) P tps fwd qs {r : ExpRunResult},
      runHops f batchSize n frontier P tps fwd qs = .ok r →
      ∀ i (hi : i + 1 < r.hopLog.length),
        (r.hopLog.get ⟨i, by omega⟩).newNeighbors ≠ ∅ := by
  intro n
  induction n with
  | zero =>
    intro frontier P tps fwd qs r h i hi
    rw [runHops_zero] at h
    cases h
    simp at hi
  | succ n ih =>
    intro frontier P tps fwd qs r h i hi
    rcases hrb : runBatchChunks f frontier (chunkList batchSize frontier) P tps fwd qs ∅
      with c | acc
    · rw [runHops_succ_fail f batchSize n frontier P tps fwd qs hrb] at h
      cases h
    · by_cases hnn : acc.newNeighbors = ∅
      · rw [runHops_succ_stop f batchSize n frontier P tps fwd qs hrb hnn] at h
        cases h
        simp at hi
      · rw [runHops_succ_cont f batchSize n frontier P tps fwd qs hrb hnn] at h
        rcases hrec : runHops f batchSize n (setToList (acc.newNeighbors \ acc.processed))
            acc.processed acc.triplets acc.forward acc.quals with c | r2
        · rw [hrec] at h; cases h
        · rw [hrec] at h
          cases h
          rcases i with _ | j
          · simpa using hnn
          · simp only [List.length_cons] at hi
            have := ih _ _ _ _ _ hrec j (by omega)
            simpa using this

lemma runHops_last_empty (f : Fetcher) (batchSize : Nat) :
    ∀ (n : Nat) (frontier : List Entity) P tps fwd qs {r : ExpRunResult},
      runHops f batchSize n frontier P tps fwd qs = .ok r →
      r.hopLog.length < n → ∀ (hne : r.hopLog ≠ []),
        (r.hopLog.getLast hne).newNeighbors = ∅ := by
  intro n
  induction n with
  | zero =>
    intro frontier P tps fwd qs r h hlt hne
    omega
  | succ n ih =>
    intro frontier P tps fwd qs r h hlt hne
    rcases hrb : runBatchChunks f frontier (chunkList batchSize frontier) P tps fwd qs ∅
      with c | acc
    · rw [runHops_succ_fail f batchSize n frontier P tps fwd qs hrb] at h
      cases h
    · by_cases hnn : acc.newNeighbors = ∅
      · rw [runHops_succ_stop f batchSize n frontier P tps fwd qs hrb hnn] at h
        cases h
        simpa using hnn
      · rw [runHops_succ_cont f batchSize n frontier P tps fwd qs hrb hnn] at h
        rcases hrec : runHops f batchSize n (setToList (acc.newNeighbors \ acc.processed))
            acc.processed acc.triplets acc.forward acc.quals with c | r2
        · rw [hrec] at h; cases h
        · rw [hrec] at h
          cases h
          simp only [List.length_cons] at hlt
          have hn1 : 1 ≤ n := by omega
          have hr2ne : r2.hopLog ≠ [] :=
            runHops_hopLog_ne_nil f batchSize n _ _ _ _ _ hn1 hrec
          have hgl : ((⟨frontier, acc.newNeighbors, acc.processed⟩ : HopInfo)
              :: r2.hopLog).getLast (by simp) = r2.hopLog.getLast hr2ne :=
            List.getLast_cons hr2ne
          rw [hgl]
          exact ih _ _ _ _ _ hrec (by omega) hr2ne

lemma runHops_head_frontier (f : Fetcher) (batchSize : Nat) (n : Nat)
    (frontier : List Entity) (P : Finset Entity) (tps : Finset StrTriplet)
    (fwd : List (Entity × Entity)) (qs : List (StrTriplet × Qual)) {r : ExpRunResult}
    (h : runHops f batchSize n frontier P tps fwd qs = .ok r) (hne : r.hopLog ≠ []) :
    (r.hopLog.head hne).frontier = frontier := by
  rcases n with _ | m
  · rw [runHops_zero] at h
    cases h
    simp at hne
  · rcases hrb : runBatchChunks f frontier (chunkList batchSize frontier) P tps fwd qs ∅
      with c | acc
    · rw [runHops_succ_fail f batchSize m frontier P tps fwd qs hrb] at h
      cases h
    · by_cases hnn : acc.newNeighbors = ∅
      · rw [runHops_succ_stop f batchSize m frontier P tps fwd qs hrb hnn] at h
        cases h
        simp
      · rw [runHops_succ_cont f batchSize m frontier P tps fwd qs hrb hnn] at h
        rcases hrec : runHops f batchSize m (setToList (acc.newNeighbors \ acc.processed))
            acc.processed acc.triplets acc.forward acc.quals with c | r2
        · rw [hrec] at h; cases h
        · rw [hrec] at h
          cases h
          simp

lemma ascList_length {α : Type} [LinearOrder α] (s : Finset α) :
    (ascList s).length = s.card := by
  rcases s with ⟨val, nd⟩
  induction val using Quotient.inductionOn with
  | h l =>
    show (List.insertionSort _ l).length = _
    rw [List.length_insertionSort]
    rfl

lemma ascList_nodup {α : Type} [LinearOrder α] (s : Finset α) : (ascList s).Nodup := by
  rcases s with ⟨val, nd⟩
  induction val using Quotient.inductionOn with
  | h l =>
    show (List.insertionSort (fun a b => a ≤ b) l).Nodup
    have hl : l.Nodup := nd
    exact (List.perm_insertionSort (fun a b => a ≤ b) l).symm.nodup hl

lemma ascList_mem {α : Type} [LinearOrder α] {s : Finset α} {x : α} :
    x ∈ ascList s ↔ x ∈ s := by
  rcases s with ⟨val, nd⟩
  induction val using Quotient.inductionOn with
  | h l =>
    show x ∈ List.insertionSort _ l ↔ _
    rw [List.Perm.mem_iff (List.perm_insertionSort _ l)]
    rfl

lemma setToList_mem {s : Finset String} {e : String} : e ∈ setToList s ↔ e ∈ s :=
  ascList_mem

lemma setToList_toFinset (s : Finset String) : (setToList s).toFinset = s := by
  ext x
  rw [List.mem_toFinset, setToList_mem]

lemma runHops_hop_chain (f : Fetcher) (batchSize : Nat) :
    ∀ (n : Nat) (frontier : List Entity) P tps fwd qs {r : ExpRunResult},
      runHops f batchSize n frontier P tps fwd qs = .ok r →
      ∀ i (hi : i + 1 < r.hopLog.length),
        ∀ e ∈ (r.hopLog.get ⟨i + 1, hi⟩).frontier,
          e ∉ (r.hopLog.get ⟨i, by omega⟩).processedAtEnd := by
  intro n
  induction n with
  | zero =>
    intro frontier P tps fwd qs r h i hi
    rw [runHops_zero] at h
    cases h
    simp at hi
  | succ n ih =>
    intro frontier P tps fwd qs r h i hi
    rcases hrb : runBatchChunks f frontier (chunkList batchSize frontier) P tps fwd qs ∅
      with c | acc
    · rw [runHops_succ_fail f batchSize n frontier P tps fwd qs hrb] at h
      cases h
    · by_cases hnn : acc.newNeighbors = ∅
      · rw [runHops_succ_stop f batchSize n frontier P tps fwd qs hrb hnn] at h
        cases h
        simp at hi
      · rw [runHops_succ_cont f batchSize n frontier P tps fwd qs hrb hnn] at h
        rcases hrec : runHops f batchSize n (setToList (acc.newNeighbors \ acc.processed))
            acc.processed acc.triplets acc.forward acc.quals with c | r2
        · rw [hrec] at h; cases h
        · rw [hrec] at h
          cases h
          rcases i with _ | j
          · intro e he
            simp only [List.length_cons] at hi
            have hr2ne : r2.hopLog ≠ [] := by
              intro hcon
              rw [hcon] at hi
              simp at hi
            have hhead : (r2.hopLog.head hr2ne).frontier =
                setToList (acc.newNeighbors \ acc.processed) :=
              runHops_head_frontier f batchSize n _ _ _ _ _ hrec hr2ne
            have hget0 : ((⟨frontier, acc.newNeighbors, acc.processed⟩ : HopInfo)
                :: r2.hopLog).get ⟨1, by simp; omega⟩ = r2.hopLog.get ⟨0, by omega⟩ := by
              simp
            have hgethead : r2.hopLog.get ⟨0, by omega⟩ = r2.hopLog.head hr2ne := by
              rw [List.get_mk_zero]
            intro hcon
            have he2 : e ∈ setToList (acc.newNeighbors \ acc.processed) := by
              rw [← hhead, ← hgethead, ← hget0]
              exact he
            rw [setToList_mem, Finset.mem_sdiff] at he2
            exact he2.2 (by simpa using hcon)
          · simp only [List.length_cons] at hi
            have := ih _ _ _ _ _ hrec j (by omega)
            intro e he hcon
            apply this e
            · simpa using he
            · simpa using hcon

lemma runHops_events_chain (f : Fetcher) (batchSize : Nat) :
    ∀ (n : Nat) (frontier : List Entity) P tps fwd qs {r : ExpRunResult},
      runHops f batchSize n frontier P tps fwd qs = .ok r →
      ∃ q, EventsChainTo P q r.events := by
  intro n
  induction n with
  | zero =>
    intro frontier P tps fwd qs r h
    rw [runHops_zero] at h
    cases h
    exact ⟨P, rfl⟩
  | succ n ih =>
    intro frontier P tps fwd qs r h
    rcases hrb : runBatchChunks f frontier (chunkList batchSize frontier) P tps fwd qs ∅
      with c | acc
    · rw [runHops_succ_fail f batchSize n frontier P tps fwd qs hrb] at h
      cases h
    · by_cases hnn : acc.newNeighbors = ∅
      · rw [runHops_succ_stop f batchSize n frontier P tps fwd qs hrb hnn] at h
        cases h
        exact ⟨acc.processed, runBatchChunks_chain f frontier _ _ _ _ _ _ hrb⟩
      · rw [runHops_succ_cont f batchSize n frontier P tps fwd qs hrb hnn] at h
        rcases hrec : runHops f batchSize n (setToList (acc.newNeighbors \ acc.processed))
            acc.processed acc.triplets acc.forward acc.quals with c | r2
        · rw [hrec] at h; cases h
        · rw [hrec] at h
          cases h
          rcases ih _ _ _ _ _ hrec with ⟨q, hq⟩
          exact ⟨q, eventsChainTo_append _ _
            (runBatchChunks_chain f frontier _ _ _ _ _ _ hrb) hq⟩

lemma runHops_error_of_fail (f : Fetcher) (batchSize : Nat) (n : Nat)
    (frontier : List Entity) (P : Finset Entity) (tps : Finset StrTriplet)
    (fwd : List (Entity × Entity)) (qs : List (StrTriplet × Qual)) {e : Entity}
    (hn : 1 ≤ n) (he : e ∈ frontier) (hfe : f e = none) (heP : e ∉ P) :
    runHops f batchSize n frontier P tps fwd qs = .error (-1) := by
  rcases n with _ | m
  · omega
  · have hrb : runBatchChunks f frontier (chunkList batchSize frontier) P tps fwd qs ∅ =
        .error (-1) := by
      apply runBatchChunks_error_of_fail f frontier _ _ _ _ _ _ _ hfe heP
      rw [← List.mem_flatten]
      rw [chunkList_flatten]
      exact he
    exact runHops_succ_fail f batchSize m frontier P tps fwd qs hrb

lemma runBatchChunks_frontier_processed (f : Fetcher) (batchSize : Nat)
    (fl : List Entity) (P : Finset Entity) (tps : Finset StrTriplet)
    (fwd : List (Entity × Entity)) (qs : List (StrTriplet × Qual)) (nn : Finset Entity)
    {acc : ExpAccum}
    (h : runBatchChunks f fl (chunkList batchSize fl) P tps fwd qs nn = .ok acc) :
    ∀ e ∈ fl, e ∈ acc.processed := by
  intro e he
  have : ∃ c ∈ chunkList batchSize fl, e ∈ c := by
    rw [← List.mem_flatten, chunkList_flatten]
    exact he
  rcases this with ⟨c, hc, hec⟩
  exact runBatchChunks_covers f fl _ _ _ _ _ _ h c hc e hec

lemma runHops_event_triplets (f : Fetcher) (batchSize : Nat) :
    ∀ (n : Nat) (frontier : List Entity) P tps fwd qs {r : ExpRunResult},
      runHops f batchSize n frontier P tps fwd qs = .ok r →
      tps = P.biUnion (fetchTriplets f) →
      ∀ ev ∈ r.events,
        ev.checkpoint.tripletsProcessed = ev.processedAfter.biUnion (fetchTriplets f) := by
  intro n
  induction n with
  | zero =>
    intro frontier P tps fwd qs r h htps ev hev
    rw [runHops_zero] at h
    cases h
    simp at hev
  | succ n ih =>
    intro frontier P tps fwd qs r h htps ev hev
    rcases hrb : runBatchChunks f frontier (chunkList batchSize frontier) P tps fwd qs ∅
      with c | acc
    · rw [runHops_succ_fail f batchSize n frontier P tps fwd qs hrb] at h
      cases h
    · by_cases hnn : acc.newNeighbors = ∅
      · rw [runHops_succ_stop f batchSize n frontier P tps fwd qs hrb hnn] at h
        cases h
        exact (runBatchChunks_triplets f frontier _ _ _ _ _ _ hrb htps).2 ev hev
      · rw [runHops_succ_cont f batchSize n frontier P tps fwd qs hrb hnn] at h
        rcases hrec : runHops f batchSize n (setToList (acc.newNeighbors \ acc.processed))
            acc.processed acc.triplets acc.forward acc.quals with c | r2
        · rw [hrec] at h; cases h
        · rw [hrec] at h
          cases h
          rcases runBatchChunks_triplets f frontier _ _ _ _ _ _ hrb htps with ⟨hacc, hevs⟩
          rcases List.mem_append.mp hev with hev1 | hev2
          · exact hevs ev hev1
          · exact ih _ _ _ _ _ hrec hacc ev hev2

lemma runHops_event_eytp (f : Fetcher) (batchSize : Nat) (E0 : Finset Entity) :
    ∀ (n : Nat) (frontier : List Entity) P tps fwd qs {r : ExpRunResult},
      runHops f batchSize n frontier P tps fwd qs = .ok r →
      frontier.toFinset ∪ P = E0 ∪ tailsOf tps ∪ P →
      ∀ ev ∈ r.events,
        ev.checkpoint.entitiesYetToProcess =
          (E0 ∪ tailsOf ev.checkpoint.tripletsProcessed) \ ev.processedAfter := by
  intro n
  induction n with
  | zero =>
    intro frontier P tps fwd qs r h hinv ev hev
    rw [runHops_zero] at h
    cases h
    simp at hev
  | succ n ih =>
    intro frontier P tps fwd qs r h hinv ev hev
    have hinv0 : frontier.toFinset ∪ ∅ ∪ P = E0 ∪ tailsOf tps ∪ P := by
      rw [Finset.union_empty]
      exact hinv
    rcases hrb : runBatchChunks f frontier (chunkList batchSize frontier) P tps fwd qs ∅
      with c | acc
    · rw [runHops_succ_fail f batchSize n frontier P tps fwd qs hrb] at h
      cases h
    · have hch : ∀ c ∈ chunkList batchSize frontier, ∀ e ∈ c, e ∈ frontier :=
        fun c hc e he => mem_of_mem_chunkList hc he
      by_cases hnn : acc.newNeighbors = ∅
      · rw [runHops_succ_stop f batchSize n frontier P tps fwd qs hrb hnn] at h
        cases h
        exact (runBatchChunks_eytp f frontier E0 _ _ _ _ _ _ hrb hch hinv0).2 ev hev
      · rw [runHops_succ_cont f batchSize n frontier P tps fwd qs hrb hnn] at h
        rcases hrec : runHops f batchSize n (setToList (acc.newNeighbors \ acc.processed))
            acc.processed acc.triplets acc.forward acc.quals with c | r2
        · rw [hrec] at h; cases h
        · rw [hrec] at h
          cases h
          rcases runBatchChunks_eytp f frontier E0 _ _ _ _ _ _ hrb hch hinv0 with ⟨hout, hevs⟩
          rcases List.mem_append.mp hev with hev1 | hev2
          · exact hevs ev hev1
          · apply ih _ _ _ _ _ hrec _ ev hev2
            have hfl : ∀ e ∈ frontier, e ∈ acc.processed :=
              runBatchChunks_frontier_processed f batchSize frontier _ _ _ _ _ hrb
            rw [setToList_toFinset, Finset.sdiff_union_self_eq_union]
            ext x
            have h1 := Finset.ext_iff.mp hout x
            simp only [Finset.mem_union, List.mem_toFinset] at h1 ⊢
            constructor
            · intro hx
              tauto
            · intro hx
              rcases h1.mpr hx with h2 | h3
              · rcases h2 with h4 | h5
                · exact Or.inr (hfl x h4)
                · tauto
              · tauto

lemma runHops_event_quals (f : Fetcher) (batchSize : Nat) :
    ∀ (n : Nat) (frontier : List Entity) P tps fwd qs {r : ExpRunResult},
      runHops f batchSize n frontier P tps fwd qs = .ok r →
      (∀ kv ∈ qs, ∃ e ∈ P, kv ∈ fetchQuals f e) →
      ∀ ev ∈ r.events, ∀ kv ∈ ev.checkpoint.qualifierDict,
        ∃ e ∈ ev.processedAfter, kv ∈ fetchQuals f e := by
  intro n
  induction n with
  | zero =>
    intro frontier P tps fwd qs r h hq ev hev
    rw [runHops_zero] at h
    cases h
    simp at hev
  | succ n ih =>
    intro frontier P tps fwd qs r h hq ev hev
    rcases hrb : runBatchChunks f frontier (chunkList batchSize frontier) P tps fwd qs ∅
      with c | acc
    · rw [runHops_succ_fail f batchSize n frontier P tps fwd qs hrb] at h
      cases h
    · by_cases hnn : acc.newNeighbors = ∅
      · rw [runHops_succ_stop f batchSize n frontier P tps fwd qs hrb hnn] at h
        cases h
        exact (runBatchChunks_quals f frontier _ _ _ _ _ _ hrb hq).2 ev hev
      · rw [runHops_succ_cont f batchSize n frontier P tps fwd qs hrb hnn] at h
        rcases hrec : runHops f batchSize n (setToList (acc.newNeighbors \ acc.processed))
            acc.processed acc.triplets acc.forward acc.quals with c | r2
        · rw [hrec] at h; cases h
        · rw [hrec] at h
          cases h
          rcases runBatchChunks_quals f frontier _ _ _ _ _ _ hrb hq with ⟨hout, hevs⟩
          rcases List.mem_append.mp hev with hev1 | hev2
          · exact hevs ev hev1
          · exact ih _ _ _ _ _ hrec hout ev hev2

lemma runHops_batch_le (f : Fetcher) (batchSize : Nat) (hbs : 1 ≤ batchSize) :
    ∀ (n : Nat) (frontier : List Entity) P tps fwd qs {r : ExpRunResult},
      runHops f batchSize n frontier P tps fwd qs = .ok r →
      ∀ ev ∈ r.events, ev.batch.length ≤ batchSize := by
  intro n
  induction n with
  | zero =>
    intro frontier P tps fwd qs r h ev hev
    rw [runHops_zero] at h
    cases h
    simp at hev
  | succ n ih =>
    intro frontier P tps fwd qs r h ev hev
    rcases hrb : runBatchChunks f frontier (chunkList batchSize frontier) P tps fwd qs ∅
      with c | acc
    · rw [runHops_succ_fail f batchSize n frontier P tps fwd qs hrb] at h
      cases h
    · have hlen : ∀ c ∈ chunkList batchSize frontier, c.length ≤ batchSize :=
        fun c hc => chunkList_length_le hbs hc
      by_cases hnn : acc.newNeighbors = ∅
      · rw [runHops_succ_stop f batchSize n frontier P tps fwd qs hrb hnn] at h
        cases h
        exact runBatchChunks_batch_le f frontier batchSize _ _ _ _ _ _ hrb hlen ev hev
      · rw [runHops_succ_cont f batchSize n frontier P tps fwd qs hrb hnn] at h
        rcases hrec : runHops f batchSize n (setToList (acc.newNeighbors \ acc.processed))
            acc.processed acc.triplets acc.forward acc.quals with c | r2
        · rw [hrec] at h; cases h
        · rw [hrec] at h
          cases h
          rcases List.mem_append.mp hev with hev1 | hev2
          · exact runBatchChunks_batch_le f frontier batchSize _ _ _ _ _ _ hrb hlen ev hev1
          · exact ih _ _ _ _ _ hrec ev hev2

lemma expandTripletSet_ok_elim {f : Fetcher} {E : Finset Entity} {ts hops bs : Nat}
    {r : ExpRunResult} (h : expandTripletSet f E ts hops bs = .ok r) :
    ∃ r0, runHops f bs hops (setToList E) ∅ ∅ [] [] = .ok r0 ∧
      r.triplets = r0.triplets ∧ r.quals = r0.quals ∧ r.events = r0.events ∧
      r.hopLog = r0.hopLog := by
  unfold expandTripletSet at h
  rcases hrh : runHops f bs hops (setToList E) ∅ ∅ [] [] with c | r0
  · rw [hrh] at h; cases h
  · rw [hrh] at h
    cases h
    exact ⟨r0, rfl, rfl, rfl, rfl, rfl⟩

lemma expandTripletSet_error_intro (f : Fetcher) (E : Finset Entity) (ts hops bs : Nat)
    {c : Int} (hrh : runHops f bs hops (setToList E) ∅ ∅ [] [] = .error c) :
    expandTripletSet f E ts hops bs = .error c := by
  unfold expandTripletSet
  rw [hrh]

lemma chainTo_sub {q : Finset Entity} :
    ∀ {l : List BatchEvent} {p : Finset Entity}, EventsChainTo p q l →
      ∀ i (hi : i < l.length), p ⊆ (l.get ⟨i, hi⟩).processedAfter := by
  intro l
  induction l with
  | nil => intro p h i hi; simp at hi
  | cons ev rest ih =>
    intro p h i hi
    rcases h with ⟨hsub, _, _, hrest⟩
    rcases i with _ | j
    · simpa using hsub
    · simp only [List.get_cons_succ]
      exact hsub.trans (ih hrest j (by simpa using hi))

lemma chainTo_fresh {q : Finset Entity} :
    ∀ {l : List BatchEvent} {p : Finset Entity}, EventsChainTo p q l →
      ∀ j (hj : j < l.length), ∀ e ∈ (l.get ⟨j, hj⟩).batch, e ∉ p := by
  intro l
  induction l with
  | nil => intro p h j hj; simp at hj
  | cons ev rest ih =>
    intro p h j hj
    rcases h with ⟨hsub, hfresh, _, hrest⟩
    rcases j with _ | j
    · simpa using hfresh
    · intro e he hcon
      exact ih hrest j (by simpa using hj) e (by simpa using he) (hsub hcon)

lemma chainTo_mark_mem {q : Finset Entity} :
    ∀ {l : List BatchEvent} {p : Finset Entity}, EventsChainTo p q l →
      ∀ ev ∈ l, ∀ e ∈ ev.batch, e ∈ ev.processedAfter := by
  intro l
  induction l with
  | nil => intro p h ev hev; simp at hev
  | cons ev0 rest ih =>
    intro p h ev hev
    rcases h with ⟨_, _, hmark, hrest⟩
    rcases List.mem_cons.mp hev with heq | hmem
    · rw [heq]; exact hmark
    · exact ih hrest ev hmem

lemma chainTo_drop {q : Finset Entity} :
    ∀ {l : List BatchEvent} {p : Finset Entity}, EventsChainTo p q l →
      ∀ i (hi : i < l.length),
        EventsChainTo (l.get ⟨i, hi⟩).processedAfter q (l.drop (i + 1)) := by
  intro l
  induction l with
  | nil => intro p h i hi; simp at hi
  | cons ev rest ih =>
    intro p h i hi
    rcases h with ⟨_, _, _, hrest⟩
    rcases i with _ | j
    · simpa using hrest
    · simpa using ih hrest j (by simpa using hi)

lemma chainTo_mono {q : Finset Entity} {l : List BatchEvent} {p : Finset Entity}
    (h : EventsChainTo p q l) {i j : Nat} (hij : i ≤ j) (hj : j < l.length) :
    (l.get ⟨i, by omega⟩).processedAfter ⊆ (l.get ⟨j, hj⟩).processedAfter := by
  rcases Nat.lt_or_ge i j with hlt | hge
  · have hdrop := chainTo_drop h i (by omega)
    have hh : j - i - 1 < (l.drop (i + 1)).length := by
      simp only [List.length_drop]
      omega
    have hsub := chainTo_sub hdrop (j - i - 1) hh
    have harg : i + 1 + (j - i - 1) = j := by omega
    have hEq : (l.drop (i + 1)).get ⟨j - i - 1, hh⟩ = l.get ⟨j, hj⟩ := by
      have h1 : (l.drop (i + 1))[j - i - 1]? = l[j]? := by
        rw [List.getElem?_drop, harg]
      rw [List.getElem?_eq_getElem hh, List.getElem?_eq_getElem hj] at h1
      exact Option.some.inj h1
    rw [hEq] at hsub
    exact hsub
  · have : i = j := by omega
    subst this
    exact subset_rfl

lemma chainTo_later_fresh {q : Finset Entity} {l : List BatchEvent} {p : Finset Entity}
    (h : EventsChainTo p q l) {i j : Nat} (hij : i < j) (hj : j < l.length) :
    ∀ e ∈ (l.get ⟨j, hj⟩).batch, e ∉ (l.get ⟨i, by omega⟩).processedAfter := by
  intro e he
  have hdrop := chainTo_drop h i (by omega)
  have hh : j - i - 1 < (l.drop (i + 1)).length := by
    simp only [List.length_drop]
    omega
  have harg : i + 1 + (j - i - 1) = j := by omega
  have hEq : (l.drop (i + 1)).get ⟨j - i - 1, hh⟩ = l.get ⟨j, hj⟩ := by
    have h1 : (l.drop (i + 1))[j - i - 1]? = l[j]? := by
      rw [List.getElem?_drop, harg]
    rw [List.getElem?_eq_getElem hh, List.getElem?_eq_getElem hj] at h1
    exact Option.some.inj h1
  have hfr := chainTo_fresh hdrop (j - i - 1) hh e
  rw [hEq] at hfr
  exact hfr he

lemma listGet_congr {α : Type} {l1 l2 : List α} (h : l1 = l2) (i : Nat)
    (h1 : i < l1.length) (h2 : i < l2.length) : l1.get ⟨i, h1⟩ = l2.get ⟨i, h2⟩ := by
  subst h
  rfl

/-- C2: for every finite initial entity set and finite `expansion_hops`,
`expand_triplet_set` terminates after a bounded number of batches: it
executes at most `expansion_hops` hops, every dispatched batch holds at
most `batch_size` entities, and only the final executed hop may have
discovered zero new neighbor entities (the hop loop breaks as soon as a
hop discovers none). -/
theorem expand_triplet_set_terminates_bounded (f : Fetcher) (entitySet : Finset Entity)
    (targetSize expansionHops batchSize : Nat) (r : ExpRunResult)
    (hbs : 1 ≤ batchSize)
    (h : expandTripletSet f entitySet targetSize expansionHops batchSize = .ok r) :
    r.hopLog.length ≤ expansionHops ∧
    (∀ ev ∈ r.events, ev.batch.length ≤ batchSize) ∧
    (∀ i (hi : i + 1 < r.hopLog.length),
      (r.hopLog.get ⟨i, by omega⟩).newNeighbors ≠ ∅) := by
  rcases expandTripletSet_ok_elim h with ⟨r0, hrh, htp, hq, hev, hhl⟩
  refine ⟨?_, ?_, ?_⟩
  · rw [hhl]
    exact runHops_hopLog_le f batchSize expansionHops _ _ _ _ _ hrh
  · rw [hev]
    exact runHops_batch_le f batchSize hbs expansionHops _ _ _ _ _ hrh
  · intro i hi
    have hi0 : i + 1 < r0.hopLog.length := by rw [← hhl]; exact hi
    rw [listGet_congr hhl i (by omega) (by omega)]
    exact runHops_nonfinal_ne f batchSize expansionHops _ _ _ _ _ hrh i hi0

theorem expand_triplet_set_terminates_bounded_witness :
    (1 ≤ 2) ∧ expandTripletSet wFetch {"Q1"} 5 2 2 = .ok wRunOk ∧
    (wRunOk.hopLog.length ≤ 2 ∧
     (∀ ev ∈ wRunOk.events, ev.batch.length ≤ 2) ∧
     (∀ i (hi : i + 1 < wRunOk.hopLog.length),
       (wRunOk.hopLog.get ⟨i, by omega⟩).newNeighbors ≠ ∅)) :=
  ⟨by decide, by decide,
    expand_triplet_set_terminates_bounded wFetch {"Q1"} 5 2 2 wRunOk (by decide) (by decide)⟩

/-- C3: if the fetch of some entity of a dispatched batch fails
unrecoverably (retries exhausted), the whole expansion run terminates
immediately as `exit(-1)` — a nonzero process exit status — and expansion
never continues past the error. -/
theorem fatal_fetch_error_aborts_run (f : Fetcher) (entitySet : Finset Entity)
    (targetSize expansionHops batchSize : Nat) (e : Entity)
    (hhops : 1 ≤ expansionHops) (he : e ∈ entitySet) (hfe : f e = none) :
    expandTripletSet f entitySet targetSize expansionHops batchSize = .error (-1) ∧
    (-1 : Int) ≠ 0 := by
  constructor
  · apply expandTripletSet_error_intro
    exact runHops_error_of_fail f batchSize expansionHops (setToList entitySet) ∅ ∅ [] []
      hhops (setToList_mem.mpr he) hfe (by simp)
  · decide

theorem fatal_fetch_error_aborts_run_witness :
    expandTripletSet wFetchFail {"Q1"} 5 1 2 = .error (-1) ∧ (-1 : Int) ≠ 0 :=
  fatal_fetch_error_aborts_run wFetchFail {"Q1"} 5 1 2 "Q1" (by decide) (by decide) (by decide)

/-- C6: `target_size` never causes an exit from the hop loop — the run's
result is independent of it except for the initial log line — and the
number of executed hops is exactly `min(expansion_hops, first hop that
discovers zero new neighbors)`: at most `expansion_hops` hops run, every
non-final executed hop found new neighbors, and an early stop (fewer than
`expansion_hops` hops) happens only because the final executed hop found
zero new neighbors. -/
theorem target_size_advisory_hops_exact (f : Fetcher) (entitySet : Finset Entity)
    (targetSize1 targetSize2 expansionHops batchSize : Nat) :
    (∀ r1 r2,
      expandTripletSet f entitySet targetSize1 expansionHops batchSize = .ok r1 →
      expandTripletSet f entitySet targetSize2 expansionHops batchSize = .ok r2 →
      r1.triplets = r2.triplets ∧ r1.quals = r2.quals ∧ r1.events = r2.events ∧
      r1.hopLog = r2.hopLog) ∧
    (∀ c, expandTripletSet f entitySet targetSize1 expansionHops batchSize = .error c ↔
      expandTripletSet f entitySet targetSize2 expansionHops batchSize = .error c) ∧
    (∀ r, expandTripletSet f entitySet targetSize1 expansionHops batchSize = .ok r →
      r.hopLog.length ≤ expansionHops ∧
      (∀ i (hi : i + 1 < r.hopLog.length),
        (r.hopLog.get ⟨i, by omega⟩).newNeighbors ≠ ∅) ∧
      (r.hopLog.length < expansionHops → ∀ (hne : r.hopLog ≠ []),
        (r.hopLog.getLast hne).newNeighbors = ∅) ∧
      (1 ≤ expansionHops → r.hopLog ≠ [])) := by
  refine ⟨?_, ?_, ?_⟩
  · intro r1 r2 h1 h2
    rcases expandTripletSet_ok_elim h1 with ⟨r0, hrh, htp1, hq1, hev1, hhl1⟩
    rcases expandTripletSet_ok_elim h2 with ⟨r0b, hrhb, htp2, hq2, hev2, hhl2⟩
    rw [hrh] at hrhb
    cases hrhb
    exact ⟨htp1.trans htp2.symm, hq1.trans hq2.symm, hev1.trans hev2.symm,
      hhl1.trans hhl2.symm⟩
  · intro c
    unfold expandTripletSet
    rcases hrh : runHops f batchSize expansionHops (setToList entitySet) ∅ ∅ [] []
      with c2 | r0
    · constructor
      · intro h; exact h
      · intro h; exact h
    · constructor
      · intro h; cases h
      · intro h; cases h
  · intro r h
    rcases expandTripletSet_ok_elim h with ⟨r0, hrh, htp, hq, hev, hhl⟩
    rw [hhl]
    refine ⟨runHops_hopLog_le f batchSize expansionHops _ _ _ _ _ hrh,
      fun i hi => runHops_nonfinal_ne f batchSize expansionHops _ _ _ _ _ hrh i hi,
      fun hlt hne => runHops_last_empty f batchSize expansionHops _ _ _ _ _ hrh hlt hne,
      fun h1 => runHops_hopLog_ne_nil f batchSize expansionHops _ _ _ _ _ h1 hrh⟩

theorem target_size_advisory_hops_exact_witness :
    expandTripletSet wFetch {"Q1"} 5 2 2 = .ok wRunOk ∧
    (wRunOk.hopLog.length ≤ 2 ∧
     (∀ i (hi : i + 1 < wRunOk.hopLog.length),
       (wRunOk.hopLog.get ⟨i, by omega⟩).newNeighbors ≠ ∅) ∧
     (wRunOk.hopLog.length < 2 → ∀ (hne : wRunOk.hopLog ≠ []),
       (wRunOk.hopLog.getLast hne).newNeighbors = ∅) ∧
     (1 ≤ 2 → wRunOk.hopLog ≠ [])) ∧
    (∀ r1 r2, expandTripletSet wFetch {"Q1"} 17 2 2 = .ok r1 →
      expandTripletSet wFetch {"Q1"} 99 2 2 = .ok r2 →
      r1.triplets = r2.triplets ∧ r1.quals = r2.quals ∧ r1.events = r2.events ∧
      r1.hopLog = r2.hopLog) :=
  ⟨by decide,
   (target_size_advisory_hops_exact wFetch {"Q1"} 5 5 2 2).2.2 wRunOk (by decide),
   (target_size_advisory_hops_exact wFetch {"Q1"} 17 99 2 2).1⟩

/-- C8: the processed-entity set grows monotonically across batches and
hops; every entity of a dispatched batch is processed right after its
batch (with no condition on how many triplets it yielded); an entity
already processed never appears in a later dispatched batch; and no
entity of a next-hop frontier was processed by the end of the previous
hop. -/
theorem processed_entities_monotone (f : Fetcher) (entitySet : Finset Entity)
    (targetSize expansionHops batchSize : Nat) (r : ExpRunResult)
    (h : expandTripletSet f entitySet targetSize expansionHops batchSize = .ok r) :
    (∀ i j (hij : i ≤ j) (hj : j < r.events.length),
      (r.events.get ⟨i, by omega⟩).processedAfter ⊆
        (r.events.get ⟨j, hj⟩).processedAfter) ∧
    (∀ ev ∈ r.events, ∀ e ∈ ev.batch, e ∈ ev.processedAfter) ∧
    (∀ i j (hij : i < j) (hj : j < r.events.length),
      ∀ e ∈ (r.events.get ⟨j, hj⟩).batch,
        e ∉ (r.events.get ⟨i, by omega⟩).processedAfter) ∧
    (∀ k (hk : k + 1 < r.hopLog.length),
      ∀ e ∈ (r.hopLog.get ⟨k + 1, hk⟩).frontier,
        e ∉ (r.hopLog.get ⟨k, by omega⟩).processedAtEnd) := by
  rcases expandTripletSet_ok_elim h with ⟨r0, hrh, htp, hq, hev, hhl⟩
  rcases runHops_events_chain f batchSize expansionHops _ _ _ _ _ hrh with ⟨qEnd, hchain⟩
  refine ⟨?_, ?_, ?_, ?_⟩
  · intro i j hij hj
    have hj0 : j < r0.events.length := by rw [← hev]; exact hj
    rw [listGet_congr hev i (by omega) (by omega), listGet_congr hev j hj hj0]
    exact chainTo_mono hchain hij hj0
  · intro ev hev2
    rw [hev] at hev2
    exact chainTo_mark_mem hchain ev hev2
  · intro i j hij hj
    have hj0 : j < r0.events.length := by rw [← hev]; exact hj
    rw [listGet_congr hev i (by omega) (by omega), listGet_congr hev j hj hj0]
    exact chainTo_later_fresh hchain hij hj0
  · intro k hk
    have hk0 : k + 1 < r0.hopLog.length := by rw [← hhl]; exact hk
    rw [listGet_congr hhl (k + 1) hk hk0, listGet_congr hhl k (by omega) (by omega)]
    exact runHops_hop_chain f batchSize expansionHops _ _ _ _ _ hrh k hk0

theorem processed_entities_monotone_witness :
    expandTripletSet wFetch {"Q1"} 5 2 2 = .ok wRunOk ∧
    ((∀ i j (hij : i ≤ j) (hj : j < wRunOk.events.length),
      (wRunOk.events.get ⟨i, by omega⟩).processedAfter ⊆
        (wRunOk.events.get ⟨j, hj⟩).processedAfter) ∧
     (∀ ev ∈ wRunOk.events, ∀ e ∈ ev.batch, e ∈ ev.processedAfter) ∧
     (∀ i j (hij : i < j) (hj : j < wRunOk.events.length),
      ∀ e ∈ (wRunOk.events.get ⟨j, hj⟩).batch,
        e ∉ (wRunOk.events.get ⟨i, by omega⟩).processedAfter) ∧
     (∀ k (hk : k + 1 < wRunOk.hopLog.length),
      ∀ e ∈ (wRunOk.hopLog.get ⟨k + 1, hk⟩).frontier,
        e ∉ (wRunOk.hopLog.get ⟨k, by omega⟩).processedAtEnd)) :=
  ⟨by decide, processed_entities_monotone wFetch {"Q1"} 5 2 2 wRunOk (by decide)⟩

/-- C4 (counterexample): a resumed run whose loaded checkpoint holds the
triplet ("Q9","P9","Q8").  That triplet reaches the final result, yet no
checkpoint persisted during the resumed run contains it: checkpoints only
capture the triplets accumulated by the current process, not the loaded
ones. -/
theorem checkpoint_resume_counterexample :
    expandTripletsLogistics wFetch ∅ wChkFiles true 5 1 2 = .ok wLogisticsOk ∧
    ("Q9", "P9", "Q8") ∈ wLogisticsOk.triplets ∧
    wLogisticsOk.runEvents ≠ [] ∧
    ∀ ev ∈ wLogisticsOk.runEvents,
      ("Q9", "P9", "Q8") ∉ ev.checkpoint.tripletsProcessed := by
  refine ⟨by decide, by decide, by decide, by decide⟩

/-- C4 (amended): after every dispatched batch exactly one checkpoint is
recorded, and it captures exactly the current state of the process run:
its triplet file equals the union of the fetch results of the entities
processed so far in this run, its frontier file equals (initial entities ∪
all tail entities discovered so far in this run) minus the processed
entities, and every entry of its qualifier file stems from the fetch of a
processed entity of this run.  Under a resumed run the same holds for the
run started from the loaded frontier — the loaded triplets and qualifiers
are merged only into the final result, not into new checkpoints. -/
theorem checkpoint_after_batch_current_run (f : Fetcher)
    (targetSize expansionHops batchSize : Nat) :
    (∀ (entitySet : Finset Entity) r,
      expandTripletSet f entitySet targetSize expansionHops batchSize = .ok r →
      ∀ ev ∈ r.events,
        ev.checkpoint.tripletsProcessed = ev.processedAfter.biUnion (fetchTriplets f) ∧
        ev.checkpoint.entitiesYetToProcess =
          (entitySet ∪ tailsOf ev.checkpoint.tripletsProcessed) \ ev.processedAfter ∧
        (∀ kv ∈ ev.checkpoint.qualifierDict,
          ∃ e ∈ ev.processedAfter, kv ∈ fetchQuals f e)) ∧
    (∀ (ogEntities E : Finset Entity) (T : List StrTriplet)
        (Q : List (StrTriplet × Qual)) res,
      expandTripletsLogistics f ogEntities ⟨some E, some T, some Q⟩ true
          targetSize expansionHops batchSize = .ok res →
      ∃ r, expandTripletSet f E targetSize expansionHops batchSize = .ok r ∧
        res.runEvents = r.events ∧
        res.triplets = r.triplets ∪ T.toFinset ∧
        res.quals = pyDictUpdate r.quals Q) := by
  constructor
  · intro entitySet r h ev hev
    rcases expandTripletSet_ok_elim h with ⟨r0, hrh, htp, hq, hevq, hhl⟩
    rw [hevq] at hev
    refine ⟨?_, ?_, ?_⟩
    · exact runHops_event_triplets f batchSize expansionHops _ _ _ _ _ hrh (by simp)
        ev hev
    · apply runHops_event_eytp f batchSize entitySet expansionHops _ _ _ _ _ hrh _ ev hev
      rw [setToList_toFinset]
      unfold tailsOf
      simp
    · intro kv hkv
      exact runHops_event_quals f batchSize expansionHops _ _ _ _ _ hrh
        (by intro kv2 hkv2; simp at hkv2) ev hev kv hkv
  · intro ogEntities E T Q res h
    unfold expandTripletsLogistics at h
    simp only [Option.isSome_some, Bool.and_self, if_true, Bool.true_and] at h
    unfold logisticsRun at h
    simp only [Option.getD_some] at h
    rcases hets : expandTripletSet f E targetSize expansionHops batchSize with c | r
    · rw [hets] at h
      cases h
    · rw [hets] at h
      cases h
      exact ⟨r, rfl, rfl, rfl, rfl⟩

theorem checkpoint_after_batch_current_run_witness :
    expandTripletSet wFetch {"Q1"} 5 1 2 = .ok
      ((expandTripletSet wFetch {"Q1"} 5 1 2).toOption.getD ⟨∅, [], [], [], []⟩) ∧
    (∀ ev ∈ ((expandTripletSet wFetch {"Q1"} 5 1 2).toOption.getD
        ⟨∅, [], [], [], []⟩).events,
      ev.checkpoint.tripletsProcessed = ev.processedAfter.biUnion (fetchTriplets wFetch) ∧
      ev.checkpoint.entitiesYetToProcess =
        ({"Q1"} ∪ tailsOf ev.checkpoint.tripletsProcessed) \ ev.processedAfter ∧
      (∀ kv ∈ ev.checkpoint.qualifierDict,
        ∃ e ∈ ev.processedAfter, kv ∈ fetchQuals wFetch e)) ∧
    (∃ r, expandTripletSet wFetch {"Q1"} 5 1 2 = .ok r ∧
      wLogisticsOk.runEvents = r.events ∧
      wLogisticsOk.triplets = r.triplets ∪ ([("Q9", "P9", "Q8")] : List StrTriplet).toFinset ∧
      wLogisticsOk.quals = pyDictUpdate r.quals []) :=
  ⟨by decide,
   (checkpoint_after_batch_current_run wFetch 5 1 2).1 {"Q1"} _ (by decide),
   (checkpoint_after_batch_current_run wFetch 5 1 2).2 ∅ {"Q1"} [("Q9", "P9", "Q8")] []
     wLogisticsOk (by decide)⟩

/-- C5: when some but not all of the three checkpoint files exist,
`expand_triplets_logistics` raises its fatal `RuntimeError` before any
expansion work (the result is that error for every fetcher); when all
three exist and the user answers yes, the run starts from the loaded
frontier and the loaded triplets and qualifiers are merged into the final
result after expansion completes; when the user declines, the run is the
same as one with no checkpoint files at all. -/
theorem checkpoint_logistics_consistency_and_resume (f : Fetcher)
    (ogEntities : Finset Entity) (chk : CheckpointFiles) (ans : Bool)
    (targetSize expansionHops batchSize : Nat) :
    ((chk.entFile.isSome ∨ chk.triFile.isSome ∨ chk.qualFile.isSome) →
      ¬ (chk.entFile.isSome ∧ chk.triFile.isSome ∧ chk.qualFile.isSome) →
      expandTripletsLogistics f ogEntities chk ans targetSize expansionHops batchSize =
        .error .checkpointInconsistency) ∧
    (∀ (E : Finset Entity) (T : List StrTriplet) (Q : List (StrTriplet × Qual)) r,
      chk = ⟨some E, some T, some Q⟩ →
      expandTripletSet f E targetSize expansionHops batchSize = .ok r →
      expandTripletsLogistics f ogEntities chk true targetSize expansionHops batchSize =
        .ok ⟨r.triplets ∪ T.toFinset, pyDictUpdate r.quals Q, r.events, r.hopLog,
          (r.triplets ∪ T.toFinset).image (fun t => t.1) ∪
            (r.triplets ∪ T.toFinset).image (fun t => t.2.2),
          (r.triplets ∪ T.toFinset).image (fun t => t.2.1)⟩) ∧
    ((chk.entFile.isSome ∧ chk.triFile.isSome ∧ chk.qualFile.isSome) →
      expandTripletsLogistics f ogEntities chk false targetSize expansionHops batchSize =
        expandTripletsLogistics f ogEntities ⟨none, none, none⟩ false
          targetSize expansionHops batchSize) := by
  refine ⟨?_, ?_, ?_⟩
  · intro hsome hnall
    unfold expandTripletsLogistics
    have h1 : (chk.entFile.isSome && chk.triFile.isSome && chk.qualFile.isSome) = false := by
      rcases h1 : chk.entFile.isSome <;> rcases h2 : chk.triFile.isSome <;>
        rcases h3 : chk.qualFile.isSome <;> simp_all
    have h2 : (chk.entFile.isSome || chk.triFile.isSome || chk.qualFile.isSome) = true := by
      rcases h1 : chk.entFile.isSome <;> rcases h2 : chk.triFile.isSome <;>
        rcases h3 : chk.qualFile.isSome <;> simp_all
    rw [h1, h2]
    simp
  · intro E T Q r hchk hets
    subst hchk
    unfold expandTripletsLogistics
    simp only [Option.isSome_some, Bool.and_self, if_true]
    unfold logisticsRun
    simp only [Option.getD_some]
    rw [hets]
  · intro hall
    unfold expandTripletsLogistics
    have h1 : (chk.entFile.isSome && chk.triFile.isSome && chk.qualFile.isSome) = true := by
      rcases hall with ⟨ha, hb, hc⟩
      simp [ha, hb, hc]
    rw [h1]
    simp

theorem checkpoint_logistics_consistency_and_resume_witness :
    expandTripletsLogistics wFetch {"Q3"} wChkPartial true 5 1 2 =
      .error .checkpointInconsistency ∧
    expandTripletsLogistics wFetch ∅ wChkFiles true 5 1 2 =
      .ok ⟨(((expandTripletSet wFetch {"Q1"} 5 1 2).toOption.getD
              ⟨∅, [], [], [], []⟩).triplets ∪ ([("Q9", "P9", "Q8")] : List StrTriplet).toFinset),
        pyDictUpdate ((expandTripletSet wFetch {"Q1"} 5 1 2).toOption.getD
              ⟨∅, [], [], [], []⟩).quals [],
        ((expandTripletSet wFetch {"Q1"} 5 1 2).toOption.getD ⟨∅, [], [], [], []⟩).events,
        ((expandTripletSet wFetch {"Q1"} 5 1 2).toOption.getD ⟨∅, [], [], [], []⟩).hopLog,
        (((expandTripletSet wFetch {"Q1"} 5 1 2).toOption.getD
              ⟨∅, [], [], [], []⟩).triplets ∪
            ([("Q9", "P9", "Q8")] : List StrTriplet).toFinset).image (fun t => t.1) ∪
          (((expandTripletSet wFetch {"Q1"} 5 1 2).toOption.getD
              ⟨∅, [], [], [], []⟩).triplets ∪
            ([("Q9", "P9", "Q8")] : List StrTriplet).toFinset).image (fun t => t.2.2),
        (((expandTripletSet wFetch {"Q1"} 5 1 2).toOption.getD
              ⟨∅, [], [], [], []⟩).triplets ∪
            ([("Q9", "P9", "Q8")] : List StrTriplet).toFinset).image (fun t => t.2.1)⟩ ∧
    expandTripletsLogistics wFetch {"Q1"} wChkFiles false 5 1 2 =
      expandTripletsLogistics wFetch {"Q1"} ⟨none, none, none⟩ false 5 1 2 :=
  ⟨(checkpoint_logistics_consistency_and_resume wFetch {"Q3"} wChkPartial true 5 1 2).1
      (by decide) (by decide),
   (checkpoint_logistics_consistency_and_resume wFetch ∅ wChkFiles true 5 1 2).2.1
      {"Q1"} [("Q9", "P9", "Q8")] [] _ (by decide) (by decide),
   (checkpoint_logistics_consistency_and_resume wFetch {"Q1"} wChkFiles false 5 1 2).2.2
      (by decide)⟩

/-- C10: the `timeout` keyword that `main` passes to
`expand_triplets_logistics` (and hence to every expansion fetch) is
`args.max_retries`, and the record of arguments handed over is entirely
independent of the `timeout` CLI argument. -/
theorem timeout_param_equals_max_retries (a : CliArgs) :
    (mainExpandLogisticsCall a).timeout = a.max_retries ∧
    (∀ t1 t2 : Nat,
      mainExpandLogisticsCall { a with timeout := t1 } =
        mainExpandLogisticsCall { a with timeout := t2 }) := by
  constructor
  · rfl
  · intro t1 t2
    rfl

/-- C9 (counterexample): a record with no `orig` key is silently skipped by
the multi-hop extraction script — the scan completes normally with that
record contributing nothing, instead of failing an assertion. -/
theorem multihop_missing_field_skipped_counterexample :
    multiHopFilter [wNoOrigRecord] = [] ∧
    multiHopFilter [wNoOrigRecord, wGoodRecord] = multiHopFilter [wGoodRecord] := by
  constructor
  · decide
  · decide

/-- C9 (amended): `extract_mquake_entities` hard-fails on malformed records
(an assertion failure when `requested_rewrite`, `orig` or `orig.triples`
is missing, and a key-lookup failure when `orig.triples_labeled` is
missing), but the multi-hop extraction script does not: it silently skips
any record missing `orig` or `orig.triples_labeled`. -/
theorem record_scan_malformed_behavior (rec : MQRecord) (rest : List MQRecord) :
    (rec.requested_rewrite = none ∨ rec.orig = none ∨
      (∃ o, rec.orig = some o ∧ o.triples = none) →
      extractMquakeEntities (rec :: rest) = .error .assertionFailed) ∧
    (∀ o triples rws, rec.orig = some o → o.triples = some triples →
      rec.requested_rewrite = some rws → o.triples_labeled = none →
      extractMquakeEntities (rec :: rest) = .error .keyLookupFailed) ∧
    (rec.orig = none → multiHopFilter (rec :: rest) = multiHopFilter rest) ∧
    (∀ o, rec.orig = some o → o.triples_labeled = none →
      multiHopFilter (rec :: rest) = multiHopFilter rest) := by
  refine ⟨?_, ?_, ?_, ?_⟩
  · intro hbad
    rcases hrw : rec.requested_rewrite with _ | rws
    · simp only [extractMquakeEntities, extractMquakeEntitiesGo, hrw]
    · rcases horig : rec.orig with _ | o
      · simp only [extractMquakeEntities, extractMquakeEntitiesGo, hrw, horig]
      · rcases hbad with h1 | h2 | h3
        · rw [hrw] at h1; cases h1
        · rw [horig] at h2; cases h2
        · rcases h3 with ⟨o2, ho2, htr⟩
          rw [horig] at ho2
          cases ho2
          simp only [extractMquakeEntities, extractMquakeEntitiesGo, hrw, horig, htr]
  · intro o triples rws horig htr hrw hlab
    simp only [extractMquakeEntities, extractMquakeEntitiesGo, hrw, horig, htr, hlab]
  · intro horig
    simp only [multiHopFilter, horig]
  · intro o horig hlab
    simp only [multiHopFilter, horig, hlab]

theorem record_scan_malformed_behavior_witness :
    extractMquakeEntities [wNoOrigRecord] = .error .assertionFailed ∧
    multiHopFilter [wNoOrigRecord] = multiHopFilter [] := by
  constructor
  · exact (record_scan_malformed_behavior wNoOrigRecord []).1 (by decide)
  · exact (record_scan_malformed_behavior wNoOrigRecord []).2.2.1 (by decide)

lemma relIndicesFrom_ge (r : RelId) :
    ∀ (l : List StrTriplet) (k : Nat), ∀ i ∈ relIndicesFrom k r l, k ≤ i := by
  intro l
  induction l with
  | nil => intro k i hi; simp [relIndicesFrom] at hi
  | cons t rest ih =>
    intro k i hi
    unfold relIndicesFrom at hi
    by_cases ht : t.2.1 = r
    · rw [if_pos ht] at hi
      rcases List.mem_cons.mp hi with heq | hmem
      · omega
      · have := ih (k + 1) i hmem
        omega
    · rw [if_neg ht] at hi
      have := ih (k + 1) i hi
      omega

lemma relIndicesFrom_nodup (r : RelId) :
    ∀ (l : List StrTriplet) (k : Nat), (relIndicesFrom k r l).Nodup := by
  intro l
  induction l with
  | nil => intro k; simp [relIndicesFrom]
  | cons t rest ih =>
    intro k
    unfold relIndicesFrom
    by_cases ht : t.2.1 = r
    · rw [if_pos ht]
      refine List.Nodup.cons ?_ (ih (k + 1))
      intro hk
      have := relIndicesFrom_ge r rest (k + 1) k hk
      omega
    · rw [if_neg ht]
      exact ih (k + 1)

lemma relIndicesFrom_length (r : RelId) :
    ∀ (l : List StrTriplet) (k : Nat), (relIndicesFrom k r l).length = countRel l r := by
  intro l
  induction l with
  | nil => intro k; simp [relIndicesFrom, countRel]
  | cons t rest ih =>
    intro k
    unfold relIndicesFrom
    unfold countRel
    by_cases ht : t.2.1 = r
    · rw [if_pos ht]
      simp only [List.length_cons]
      rw [ih (k + 1)]
      unfold countRel
      rw [List.filter_cons]
      simp [ht]
    · rw [if_neg ht]
      rw [ih (k + 1)]
      unfold countRel
      rw [List.filter_cons]
      simp [ht]

lemma mem_relIndicesFrom (r : RelId) :
    ∀ (l : List StrTriplet) (k i : Nat),
      i ∈ relIndicesFrom k r l ↔
        k ≤ i ∧ ∃ t, l[i - k]? = some t ∧ t.2.1 = r := by
  intro l
  induction l with
  | nil =>
    intro k i
    simp [relIndicesFrom]
  | cons t rest ih =>
    intro k i
    unfold relIndicesFrom
    by_cases ht : t.2.1 = r
    · rw [if_pos ht]
      constructor
      · intro hi
        rcases List.mem_cons.mp hi with heq | hmem
        · subst heq
          exact ⟨le_rfl, t, by simp, ht⟩
        · rcases (ih (k + 1) i).mp hmem with ⟨hk, t2, hget, hrel⟩
          refine ⟨by omega, t2, ?_, hrel⟩
          have harith : i - k = (i - (k + 1)) + 1 := by omega
          rw [harith]
          simpa using hget
      · rintro ⟨hk, t2, hget, hrel⟩
        rcases Nat.eq_or_lt_of_le hk with heq | hlt
        · subst heq
          simp at hget
          exact List.mem_cons_self _ _
        · apply List.mem_cons_of_mem
          rw [ih (k + 1) i]
          refine ⟨by omega, t2, ?_, hrel⟩
          have harith : i - k = (i - (k + 1)) + 1 := by omega
          rw [harith] at hget
          simpa using hget
    · rw [if_neg ht]
      constructor
      · intro hi
        rcases (ih (k + 1) i).mp hi with ⟨hk, t2, hget, hrel⟩
        refine ⟨by omega, t2, ?_, hrel⟩
        have harith : i - k = (i - (k + 1)) + 1 := by omega
        rw [harith]
        simpa using hget
      · rintro ⟨hk, t2, hget, hrel⟩
        rcases Nat.eq_or_lt_of_le hk with heq | hlt
        · subst heq
          simp at hget
          rw [hget] at ht
          exact absurd hrel ht
        · rw [ih (k + 1) i]
          refine ⟨by omega, t2, ?_, hrel⟩
          have harith : i - k = (i - (k + 1)) + 1 := by omega
          rw [harith] at hget
          simpa using hget

lemma relIndicesFrom_lt_length (r : RelId) (l : List StrTriplet) (i : Nat)
    (hi : i ∈ relIndicesFrom 0 r l) : i < l.length := by
  rcases (mem_relIndicesFrom r l 0 i).mp hi with ⟨_, t, hget, _⟩
  simp only [Nat.sub_zero] at hget
  by_contra hcon
  rw [List.getElem?_eq_none (by omega)] at hget
  cases hget

lemma relIndicesFrom_disjoint {r1 r2 : RelId} (hr : r1 ≠ r2) (l : List StrTriplet)
    (i : Nat) (h1 : i ∈ relIndicesFrom 0 r1 l) : i ∉ relIndicesFrom 0 r2 l := by
  intro h2
  rcases (mem_relIndicesFrom r1 l 0 i).mp h1 with ⟨_, t1, hget1, hrel1⟩
  rcases (mem_relIndicesFrom r2 l 0 i).mp h2 with ⟨_, t2, hget2, hrel2⟩
  rw [hget1] at hget2
  cases hget2
  exact hr (hrel1 ▸ hrel2 ▸ rfl)

lemma addToGroups_keysND {gs : List (RelId × List Nat)} (h : keysND gs) (r : RelId)
    (i : Nat) : keysND (addToGroups gs r i) := by
  unfold addToGroups
  by_cases hany : gs.any (fun g => g.1 = r)
  · rw [if_pos hany]
    unfold keysND at h ⊢
    have : (gs.map (fun g => if g.1 = r then (g.1, g.2 ++ [i]) else g)).map Prod.fst =
        gs.map Prod.fst := by
      rw [List.map_map]
      apply List.map_congr_left
      intro g _
      by_cases hg : g.1 = r
      · simp [hg]
      · simp [hg]
    rw [this]
    exact h
  · rw [if_neg hany]
    unfold keysND at h ⊢
    rw [List.map_append]
    simp only [List.map_cons, List.map_nil]
    rw [List.nodup_append]
    refine ⟨h, List.nodup_singleton r, ?_⟩
    intro x hx
    simp only [List.mem_singleton]
    intro hxr
    subst hxr
    rcases List.mem_map.mp hx with ⟨g, hg, hfst⟩
    apply hany
    rw [List.any_eq_true]
    exact ⟨g, hg, by simp [hfst]⟩

lemma find?_map_keyed {gs : List (RelId × List Nat)} {r : RelId} {i : Nat} :
    (gs.map (fun g => if g.1 = r then (g.1, g.2 ++ [i]) else g)).find?
        (fun g => g.1 == r) =
      (gs.find? (fun g => g.1 == r)).map (fun g => (g.1, g.2 ++ [i])) := by
  induction gs with
  | nil => simp
  | cons g rest ih =>
    simp only [List.map_cons]
    by_cases hg : g.1 = r
    · rw [if_pos hg]
      rw [List.find?_cons_of_pos _ (by simp [hg]), List.find?_cons_of_pos _ (by simp [hg])]
      simp
    · rw [if_neg hg]
      rw [List.find?_cons_of_neg _ (by simp [hg]), List.find?_cons_of_neg _ (by simp [hg])]
      exact ih

lemma find?_map_keyed_other {gs : List (RelId × List Nat)} {r r2 : RelId}
    (hne : r2 ≠ r) (i : Nat) :
    (gs.map (fun g => if g.1 = r then (g.1, g.2 ++ [i]) else g)).find?
        (fun g => g.1 == r2) =
      gs.find? (fun g => g.1 == r2) := by
  induction gs with
  | nil => simp
  | cons g rest ih =>
    simp only [List.map_cons]
    by_cases hg2 : g.1 = r2
    · have hgr : ¬ g.1 = r := by
        intro hc
        exact hne (by rw [← hg2, hc])
      rw [if_neg hgr]
      rw [List.find?_cons_of_pos _ (by simp [hg2]), List.find?_cons_of_pos _ (by simp [hg2])]
    · by_cases hg : g.1 = r
      · rw [if_pos hg]
        rw [List.find?_cons_of_neg _ (by simp [hg2]), List.find?_cons_of_neg _ (by simp [hg2])]
        exact ih
      · rw [if_neg hg]
        rw [List.find?_cons_of_neg _ (by simp [hg2]), List.find?_cons_of_neg _ (by simp [hg2])]
        exact ih

lemma groupOf_addToGroups_same (gs : List (RelId × List Nat)) (r : RelId) (i : Nat) :
    groupOf (addToGroups gs r i) r = some ((groupOf gs r).getD [] ++ [i]) := by
  unfold addToGroups groupOf
  by_cases hany : gs.any (fun g => g.1 = r)
  · rw [if_pos hany]
    rw [find?_map_keyed]
    rcases hfind : gs.find? (fun g => g.1 == r) with _ | g
    · exfalso
      rw [List.any_eq_true] at hany
      rcases hany with ⟨g, hg, hgr⟩
      have := List.find?_eq_none.mp hfind g hg
      simp at hgr this
      exact this hgr
    · rw [hfind]
      simp
  · rw [if_neg hany]
    rcases hfind : gs.find? (fun g => g.1 == r) with _ | g
    · rw [List.find?_append, hfind]
      simp [List.find?_cons]
    · exfalso
      apply hany
      have hmem := List.mem_of_find?_eq_some hfind
      have hp := List.find?_some hfind
      rw [List.any_eq_true]
      exact ⟨g, hmem, by simpa using hp⟩

lemma groupOf_addToGroups_other (gs : List (RelId × List Nat)) {r r2 : RelId}
    (hne : r2 ≠ r) (i : Nat) :
    groupOf (addToGroups gs r i) r2 = groupOf gs r2 := by
  unfold addToGroups groupOf
  by_cases hany : gs.any (fun g => g.1 = r)
  · rw [if_pos hany]
    rw [find?_map_keyed_other hne]
  · rw [if_neg hany]
    rw [List.find?_append]
    rcases hfind : gs.find? (fun g => g.1 == r2) with _ | g
    · rw [hfind]
      simp only [Option.none_or]
      rw [List.find?_cons_of_neg _ (by simpa using fun hc => hne hc.symm)]
      simp
    · rw [hfind]
      simp

lemma relationGroupsFrom_groupOf (r : RelId) :
    ∀ (l : List StrTriplet) (k : Nat) (gs : List (RelId × List Nat)),
      groupOf (relationGroupsFrom k l gs) r =
        combineG (groupOf gs r) (relIndicesFrom k r l) := by
  intro l
  induction l with
  | nil =>
    intro k gs
    unfold relationGroupsFrom relIndicesFrom
    rcases groupOf gs r with _ | g
    · rfl
    · show some g = combineG (some g) []
      unfold combineG
      simp
  | cons t rest ih =>
    intro k gs
    unfold relationGroupsFrom relIndicesFrom
    by_cases ht : t.2.1 = r
    · rw [if_pos ht]
      rw [ih (k + 1) (addToGroups gs t.2.1 k)]
      rw [ht, groupOf_addToGroups_same]
      rcases groupOf gs r with _ | g
      · unfold combineG
        simp
      · unfold combineG
        simp
    · rw [if_neg ht]
      rw [ih (k + 1) (addToGroups gs t.2.1 k)]
      rw [groupOf_addToGroups_other gs (fun hc => ht hc.symm) k]

lemma relationGroupsFrom_keysND :
    ∀ (l : List StrTriplet) (k : Nat) (gs : List (RelId × List Nat)),
      keysND gs → keysND (relationGroupsFrom k l gs) := by
  intro l
  induction l with
  | nil => intro k gs h; exact h
  | cons t rest ih =>
    intro k gs h
    unfold relationGroupsFrom
    exact ih (k + 1) _ (addToGroups_keysND h t.2.1 k)

lemma relationGroups_keysND (l : List StrTriplet) : keysND (relationGroups l) :=
  relationGroupsFrom_keysND l 0 [] (by simp [keysND])

lemma find?_of_mem_keysND {gs : List (RelId × List Nat)} (h : keysND gs)
    {p : RelId × List Nat} (hp : p ∈ gs) :
    gs.find? (fun g => g.1 == p.1) = some p := by
  induction gs with
  | nil => simp at hp
  | cons g rest ih =>
    rcases List.mem_cons.mp hp with heq | hmem
    · subst heq
      exact List.find?_cons_of_pos _ (by simp)
    · have hgp : ¬ g.1 = p.1 := by
        intro hc
        unfold keysND at h
        rw [List.map_cons] at h
        rcases List.nodup_cons.mp h with ⟨hnotin, _⟩
        apply hnotin
        rw [hc]
        exact List.mem_map.mpr ⟨p, hmem, rfl⟩
      rw [List.find?_cons_of_neg _ (by simp [hgp])]
      apply ih _ hmem
      unfold keysND at h ⊢
      rw [List.map_cons] at h
      exact (List.nodup_cons.mp h).2

lemma relationGroups_mem_spec (triplets : List StrTriplet)
    {p : RelId × List Nat} (hp : p ∈ relationGroups triplets) :
    p.2 = relIndicesFrom 0 p.1 triplets := by
  have h1 : groupOf (relationGroups triplets) p.1 = some p.2 := by
    unfold groupOf
    rw [find?_of_mem_keysND (relationGroups_keysND triplets) hp]
    rfl
  have h2 := relationGroupsFrom_groupOf p.1 triplets 0 []
  unfold relationGroups at h1
  rw [h1] at h2
  have h3 : groupOf [] p.1 = none := rfl
  rw [h3] at h2
  rcases hri : relIndicesFrom 0 p.1 triplets with _ | ⟨a, t⟩
  · rw [hri] at h2
    unfold combineG at h2
    cases h2
  · rw [hri] at h2
    unfold combineG at h2
    simpa using h2

lemma relationGroups_exists (triplets : List StrTriplet) (r : RelId)
    (hne : relIndicesFrom 0 r triplets ≠ []) :
    ∃ p ∈ relationGroups triplets, p.1 = r ∧ p.2 = relIndicesFrom 0 r triplets := by
  have h2 := relationGroupsFrom_groupOf r triplets 0 []
  have h3 : groupOf [] r = none := rfl
  rw [h3] at h2
  rcases hri : relIndicesFrom 0 r triplets with _ | ⟨a, t⟩
  · exact absurd hri hne
  · rw [hri] at h2
    unfold combineG at h2
    unfold relationGroups
    unfold groupOf at h2
    rcases hfind : (relationGroupsFrom 0 triplets []).find? (fun g => g.1 == r) with _ | g
    · rw [hfind] at h2
      cases h2
    · rw [hfind] at h2
      have hmem := List.mem_of_find?_eq_some hfind
      have hkey := List.find?_some hfind
      refine ⟨g, hmem, by simpa using hkey, ?_⟩
      simpa using h2

lemma phase1Step_lt (shuffle : List Nat → List Nat) (acc : Finset Nat × Finset Nat × Finset Nat)
    (g : RelId × List Nat) (h : g.2.length < minExamplesPerSplit * 3) :
    phase1Step shuffle acc g = (acc.1 ∪ g.2.toFinset, acc.2.1, acc.2.2) := by
  unfold phase1Step
  rw [if_pos h]

lemma phase1Step_ge (shuffle : List Nat → List Nat) (acc : Finset Nat × Finset Nat × Finset Nat)
    (g : RelId × List Nat) (h : ¬ g.2.length < minExamplesPerSplit * 3) :
    phase1Step shuffle acc g =
      (acc.1 ∪ ((shuffle g.2).drop (minExamplesPerSplit * 2)).toFinset,
       acc.2.1 ∪ (((shuffle g.2).drop minExamplesPerSplit).take minExamplesPerSplit).toFinset,
       acc.2.2 ∪ ((shuffle g.2).take minExamplesPerSplit).toFinset) := by
  unfold phase1Step
  rw [if_neg h]

lemma list_disjoint_toFinset {l1 l2 : List Nat} (h : List.Disjoint l1 l2) :
    Disjoint l1.toFinset l2.toFinset := by
  rw [Finset.disjoint_left]
  intro a ha hb
  rw [List.mem_toFinset] at ha hb
  exact h ha hb

lemma drop6_eq (sh : List Nat) :
    sh.drop (minExamplesPerSplit * 2) = (sh.drop minExamplesPerSplit).drop minExamplesPerSplit := by
  rw [List.drop_drop]
  congr 1

lemma slices_cover (sh : List Nat) :
    (sh.take minExamplesPerSplit).toFinset ∪
      ((sh.drop minExamplesPerSplit).take minExamplesPerSplit).toFinset ∪
      (sh.drop (minExamplesPerSplit * 2)).toFinset = sh.toFinset := by
  rw [drop6_eq]
  conv_rhs => rw [← List.take_append_drop minExamplesPerSplit sh]
  rw [List.toFinset_append]
  conv_rhs =>
    rw [← List.take_append_drop minExamplesPerSplit (sh.drop minExamplesPerSplit)]
  rw [List.toFinset_append, Finset.union_assoc]

lemma slices_disjoint {sh : List Nat} (hnd : sh.Nodup) :
    Disjoint (sh.take minExamplesPerSplit).toFinset
        ((sh.drop minExamplesPerSplit).take minExamplesPerSplit).toFinset ∧
    Disjoint (sh.take minExamplesPerSplit).toFinset
        (sh.drop (minExamplesPerSplit * 2)).toFinset ∧
    Disjoint ((sh.drop minExamplesPerSplit).take minExamplesPerSplit).toFinset
        (sh.drop (minExamplesPerSplit * 2)).toFinset := by
  have hTD : List.Disjoint (sh.take minExamplesPerSplit) (sh.drop minExamplesPerSplit) :=
    List.disjoint_take_drop hnd le_rfl
  have hnd3 : (sh.drop minExamplesPerSplit).Nodup :=
    (List.drop_sublist _ _).nodup hnd
  refine ⟨?_, ?_, ?_⟩
  · apply list_disjoint_toFinset
    intro a ha hb
    exact hTD ha (List.mem_of_mem_take hb)
  · apply list_disjoint_toFinset
    intro a ha hb
    rw [drop6_eq] at hb
    exact hTD ha (List.mem_of_mem_drop hb)
  · rw [drop6_eq]
    exact list_disjoint_toFinset (List.disjoint_take_drop hnd3 le_rfl)

lemma phase1Step_mono (shuffle : List Nat → List Nat)
    (acc : Finset Nat × Finset Nat × Finset Nat) (g : RelId × List Nat) :
    acc.1 ⊆ (phase1Step shuffle acc g).1 ∧
    acc.2.1 ⊆ (phase1Step shuffle acc g).2.1 ∧
    acc.2.2 ⊆ (phase1Step shuffle acc g).2.2 := by
  unfold phase1Step
  by_cases h : g.2.length < minExamplesPerSplit * 3
  · rw [if_pos h]
    exact ⟨Finset.subset_union_left, subset_rfl, subset_rfl⟩
  · rw [if_neg h]
    exact ⟨Finset.subset_union_left, Finset.subset_union_left, Finset.subset_union_left⟩

lemma phase1_fold_mono (shuffle : List Nat → List Nat) :
    ∀ (gs : List (RelId × List Nat)) (acc : Finset Nat × Finset Nat × Finset Nat),
      acc.1 ⊆ (gs.foldl (phase1Step shuffle) acc).1 ∧
      acc.2.1 ⊆ (gs.foldl (phase1Step shuffle) acc).2.1 ∧
      acc.2.2 ⊆ (gs.foldl (phase1Step shuffle) acc).2.2 := by
  intro gs
  induction gs with
  | nil => intro acc; exact ⟨subset_rfl, subset_rfl, subset_rfl⟩
  | cons g rest ih =>
    intro acc
    rw [List.foldl_cons]
    rcases phase1Step_mono shuffle acc g with ⟨h1, h2, h3⟩
    rcases ih (phase1Step shuffle acc g) with ⟨h4, h5, h6⟩
    exact ⟨h1.trans h4, h2.trans h5, h3.trans h6⟩

lemma phase1_fold_mem_ge (shuffle : List Nat → List Nat) :
    ∀ (gs : List (RelId × List Nat)) (acc : Finset Nat × Finset Nat × Finset Nat)
      (g : RelId × List Nat), g ∈ gs → ¬ g.2.length < minExamplesPerSplit * 3 →
      (∀ i ∈ (shuffle g.2).take minExamplesPerSplit,
        i ∈ (gs.foldl (phase1Step shuffle) acc).2.2) ∧
      (∀ i ∈ ((shuffle g.2).drop minExamplesPerSplit).take minExamplesPerSplit,
        i ∈ (gs.foldl (phase1Step shuffle) acc).2.1) ∧
      (∀ i ∈ (shuffle g.2).drop (minExamplesPerSplit * 2),
        i ∈ (gs.foldl (phase1Step shuffle) acc).1) := by
  intro gs
  induction gs with
  | nil => intro acc g hg; simp at hg
  | cons g0 rest ih =>
    intro acc g hg hlen
    rw [List.foldl_cons]
    rcases List.mem_cons.mp hg with heq | hmem
    · subst heq
      rw [phase1Step_ge shuffle acc g hlen]
      rcases phase1_fold_mono shuffle rest
        (acc.1 ∪ ((shuffle g.2).drop (minExamplesPerSplit * 2)).toFinset,
         acc.2.1 ∪ (((shuffle g.2).drop minExamplesPerSplit).take minExamplesPerSplit).toFinset,
         acc.2.2 ∪ ((shuffle g.2).take minExamplesPerSplit).toFinset) with ⟨h4, h5, h6⟩
      refine ⟨?_, ?_, ?_⟩
      · intro i hi
        apply h6
        apply Finset.mem_union_right
        rw [List.mem_toFinset]
        exact hi
      · intro i hi
        apply h5
        apply Finset.mem_union_right
        rw [List.mem_toFinset]
        exact hi
      · intro i hi
        apply h4
        apply Finset.mem_union_right
        rw [List.mem_toFinset]
        exact hi
    · exact ih (phase1Step shuffle acc g0) g hmem hlen

lemma phase1_fold_mem_lt (shuffle : List Nat → List Nat) :
    ∀ (gs : List (RelId × List Nat)) (acc : Finset Nat × Finset Nat × Finset Nat)
      (g : RelId × List Nat), g ∈ gs → g.2.length < minExamplesPerSplit * 3 →
      ∀ i ∈ g.2, i ∈ (gs.foldl (phase1Step shuffle) acc).1 := by
  intro gs
  induction gs with
  | nil => intro acc g hg; simp at hg
  | cons g0 rest ih =>
    intro acc g hg hlen i hi
    rw [List.foldl_cons]
    rcases List.mem_cons.mp hg with heq | hmem
    · subst heq
      rw [phase1Step_lt shuffle acc g hlen]
      rcases phase1_fold_mono shuffle rest
        (acc.1 ∪ g.2.toFinset, acc.2.1, acc.2.2) with ⟨h4, _, _⟩
      apply h4
      apply Finset.mem_union_right
      rw [List.mem_toFinset]
      exact hi
    · exact ih (phase1Step shuffle acc g0) g hmem hlen i hi

set_option maxHeartbeats 1600000 in
lemma phase1_fold_partition (shuffle : List Nat → List Nat)
    (hperm : ∀ l, List.Perm (shuffle l) l) :
    ∀ (gs : List (RelId × List Nat)) (tr te va : Finset Nat),
      (∀ p ∈ gs, p.2.Nodup) →
      List.Pairwise (fun p q => ∀ i ∈ p.2, i ∉ q.2) gs →
      (∀ p ∈ gs, ∀ i ∈ p.2, i ∉ tr ∧ i ∉ te ∧ i ∉ va) →
      Disjoint tr te → Disjoint tr va → Disjoint te va →
      (gs.foldl (phase1Step shuffle) (tr, te, va)).1 ∪
          (gs.foldl (phase1Step shuffle) (tr, te, va)).2.1 ∪
          (gs.foldl (phase1Step shuffle) (tr, te, va)).2.2 =
        tr ∪ te ∪ va ∪ gs.foldr (fun p s => p.2.toFinset ∪ s) ∅ ∧
      Disjoint (gs.foldl (phase1Step shuffle) (tr, te, va)).1
        (gs.foldl (phase1Step shuffle) (tr, te, va)).2.1 ∧
      Disjoint (gs.foldl (phase1Step shuffle) (tr, te, va)).1
        (gs.foldl (phase1Step shuffle) (tr, te, va)).2.2 ∧
      Disjoint (gs.foldl (phase1Step shuffle) (tr, te, va)).2.1
        (gs.foldl (phase1Step shuffle) (tr, te, va)).2.2 := by
  intro gs
  induction gs with
  | nil =>
    intro tr te va hnd hpw hfresh hd1 hd2 hd3
    simp only [List.foldl_nil, List.foldr_nil]
    exact ⟨by rw [Finset.union_empty], hd1, hd2, hd3⟩
  | cons g rest ih =>
    intro tr te va hnd hpw hfresh hd1 hd2 hd3
    rcases List.pairwise_cons.mp hpw with ⟨hhead, hpwrest⟩
    have hndg : g.2.Nodup := hnd g (List.mem_cons_self _ _)
    have hfreshg := hfresh g (List.mem_cons_self _ _)
    have hrest_nd : ∀ p ∈ rest, p.2.Nodup := fun p hp => hnd p (List.mem_cons_of_mem _ hp)
    have hnotg : ∀ p ∈ rest, ∀ i ∈ p.2, i ∉ g.2 := by
      intro p hp i hip hig
      exact hhead p hp i hig hip
    rw [List.foldl_cons, List.foldr_cons]
    by_cases hlen : g.2.length < minExamplesPerSplit * 3
    · rw [phase1Step_lt shuffle (tr, te, va) g hlen]
      have hfresh2 : ∀ p ∈ rest, ∀ i ∈ p.2,
          i ∉ tr ∪ g.2.toFinset ∧ i ∉ te ∧ i ∉ va := by
        intro p hp i hip
        rcases hfresh p (List.mem_cons_of_mem _ hp) i hip with ⟨h1, h2, h3⟩
        refine ⟨?_, h2, h3⟩
        rw [Finset.mem_union]
        rintro (hc | hc)
        · exact h1 hc
        · rw [List.mem_toFinset] at hc
          exact hnotg p hp i hip hc
      have hd1b : Disjoint (tr ∪ g.2.toFinset) te := by
        rw [Finset.disjoint_union_left]
        refine ⟨hd1, ?_⟩
        rw [Finset.disjoint_left]
        intro i hi
        rw [List.mem_toFinset] at hi
        exact (hfreshg i hi).2.1
      have hd2b : Disjoint (tr ∪ g.2.toFinset) va := by
        rw [Finset.disjoint_union_left]
        refine ⟨hd2, ?_⟩
        rw [Finset.disjoint_left]
        intro i hi
        rw [List.mem_toFinset] at hi
        exact (hfreshg i hi).2.2
      rcases ih (tr ∪ g.2.toFinset) te va hrest_nd hpwrest hfresh2 hd1b hd2b hd3 with
        ⟨hu, hx1, hx2, hx3⟩
      refine ⟨?_, hx1, hx2, hx3⟩
      rw [hu]
      ext x
      simp only [Finset.mem_union]
      tauto
    · rw [phase1Step_ge shuffle (tr, te, va) g hlen]
      have hshperm := hperm g.2
      have hshnd : (shuffle g.2).Nodup := hshperm.symm.nodup hndg
      have hshset : (shuffle g.2).toFinset = g.2.toFinset :=
        List.toFinset_eq_of_perm _ _ hshperm
      have hsliceg : ∀ i : Nat,
          (i ∈ ((shuffle g.2).take minExamplesPerSplit).toFinset ∨
           i ∈ (((shuffle g.2).drop minExamplesPerSplit).take minExamplesPerSplit).toFinset ∨
           i ∈ ((shuffle g.2).drop (minExamplesPerSplit * 2)).toFinset) ↔ i ∈ g.2 := by
        intro i
        have := Finset.ext_iff.mp (slices_cover (shuffle g.2)) i
        rw [hshset] at this
        rw [← List.mem_toFinset]
        rw [← this]
        simp only [Finset.mem_union]
        tauto
      rcases slices_disjoint hshnd with ⟨hAB, hAC, hBC⟩
      have hfresh2 : ∀ p ∈ rest, ∀ i ∈ p.2,
          i ∉ tr ∪ ((shuffle g.2).drop (minExamplesPerSplit * 2)).toFinset ∧
          i ∉ te ∪ (((shuffle g.2).drop minExamplesPerSplit).take minExamplesPerSplit).toFinset ∧
          i ∉ va ∪ ((shuffle g.2).take minExamplesPerSplit).toFinset := by
        intro p hp i hip
        rcases hfresh p (List.mem_cons_of_mem _ hp) i hip with ⟨h1, h2, h3⟩
        have hnotin : i ∉ g.2 := hnotg p hp i hip
        refine ⟨?_, ?_, ?_⟩
        · rw [Finset.mem_union]
          rintro (hc | hc)
          · exact h1 hc
          · exact hnotin ((hsliceg i).mp (Or.inr (Or.inr hc)))
        · rw [Finset.mem_union]
          rintro (hc | hc)
          · exact h2 hc
          · exact hnotin ((hsliceg i).mp (Or.inr (Or.inl hc)))
        · rw [Finset.mem_union]
          rintro (hc | hc)
          · exact h3 hc
          · exact hnotin ((hsliceg i).mp (Or.inl hc))
      have hdisjC : ∀ s : Finset Nat, (∀ i ∈ g.2, i ∉ s) →
          Disjoint s ((shuffle g.2).drop (minExamplesPerSplit * 2)).toFinset := by
        intro s hs
        rw [Finset.disjoint_right]
        intro i hi
        exact hs i ((hsliceg i).mp (Or.inr (Or.inr hi)))
      have hdisjB : ∀ s : Finset Nat, (∀ i ∈ g.2, i ∉ s) →
          Disjoint s (((shuffle g.2).drop minExamplesPerSplit).take
            minExamplesPerSplit).toFinset := by
        intro s hs
        rw [Finset.disjoint_right]
        intro i hi
        exact hs i ((hsliceg i).mp (Or.inr (Or.inl hi)))
      have hdisjA : ∀ s : Finset Nat, (∀ i ∈ g.2, i ∉ s) →
          Disjoint s ((shuffle g.2).take minExamplesPerSplit).toFinset := by
        intro s hs
        rw [Finset.disjoint_right]
        intro i hi
        exact hs i ((hsliceg i).mp (Or.inl hi))
      have hd1b : Disjoint
          (tr ∪ ((shuffle g.2).drop (minExamplesPerSplit * 2)).toFinset)
          (te ∪ (((shuffle g.2).drop minExamplesPerSplit).take
            minExamplesPerSplit).toFinset) := by
        rw [Finset.disjoint_union_left, Finset.disjoint_union_right,
          Finset.disjoint_union_right]
        exact ⟨⟨hd1, hdisjB tr (fun i hi => (hfreshg i hi).1)⟩,
          ⟨(hdisjC te (fun i hi => (hfreshg i hi).2.1)).symm, hBC.symm⟩⟩
      have hd2b : Disjoint
          (tr ∪ ((shuffle g.2).drop (minExamplesPerSplit * 2)).toFinset)
          (va ∪ ((shuffle g.2).take minExamplesPerSplit).toFinset) := by
        rw [Finset.disjoint_union_left, Finset.disjoint_union_right,
          Finset.disjoint_union_right]
        exact ⟨⟨hd2, hdisjA tr (fun i hi => (hfreshg i hi).1)⟩,
          ⟨(hdisjC va (fun i hi => (hfreshg i hi).2.2)).symm, hAC.symm⟩⟩
      have hd3b : Disjoint
          (te ∪ (((shuffle g.2).drop minExamplesPerSplit).take
            minExamplesPerSplit).toFinset)
          (va ∪ ((shuffle g.2).take minExamplesPerSplit).toFinset) := by
        rw [Finset.disjoint_union_left, Finset.disjoint_union_right,
          Finset.disjoint_union_right]
        exact ⟨⟨hd3, hdisjA te (fun i hi => (hfreshg i hi).2.1)⟩,
          ⟨(hdisjB va (fun i hi => (hfreshg i hi).2.2)).symm, hAB.symm⟩⟩
      rcases ih (tr ∪ ((shuffle g.2).drop (minExamplesPerSplit * 2)).toFinset)
          (te ∪ (((shuffle g.2).drop minExamplesPerSplit).take
            minExamplesPerSplit).toFinset)
          (va ∪ ((shuffle g.2).take minExamplesPerSplit).toFinset)
          hrest_nd hpwrest hfresh2 hd1b hd2b hd3b with ⟨hu, hx1, hx2, hx3⟩
      refine ⟨?_, hx1, hx2, hx3⟩
      rw [hu]
      ext x
      have hx := hsliceg x
      simp only [Finset.mem_union, List.mem_toFinset] at hx ⊢
      tauto

lemma relationGroups_nodup (triplets : List StrTriplet) :
    ∀ p ∈ relationGroups triplets, p.2.Nodup := by
  intro p hp
  rw [relationGroups_mem_spec triplets hp]
  exact relIndicesFrom_nodup p.1 triplets 0

lemma relationGroups_pairwise (triplets : List StrTriplet) :
    List.Pairwise (fun p q => ∀ i ∈ p.2, i ∉ q.2) (relationGroups triplets) := by
  have hkeys := relationGroups_keysND triplets
  unfold keysND at hkeys
  rw [List.Nodup, List.pairwise_map] at hkeys
  refine List.Pairwise.imp_of_mem ?_ hkeys
  intro p q hp hq hne i hip
  rw [relationGroups_mem_spec triplets hp] at hip
  rw [relationGroups_mem_spec triplets hq]
  exact relIndicesFrom_disjoint hne triplets i hip

lemma mem_foldr_groups {gs : List (RelId × List Nat)} {i : Nat} :
    i ∈ gs.foldr (fun p s => p.2.toFinset ∪ s) ∅ ↔ ∃ p ∈ gs, i ∈ p.2 := by
  induction gs with
  | nil => simp
  | cons g rest ih =>
    rw [List.foldr_cons, Finset.mem_union, ih]
    rw [List.mem_toFinset]
    constructor
    · rintro (h | ⟨p, hp, hip⟩)
      · exact ⟨g, List.mem_cons_self _ _, h⟩
      · exact ⟨p, List.mem_cons_of_mem _ hp, hip⟩
    · rintro ⟨p, hp, hip⟩
      rcases List.mem_cons.mp hp with heq | hmem
      · subst heq
        exact Or.inl hip
      · exact Or.inr ⟨p, hmem, hip⟩

lemma relationGroups_cover (triplets : List StrTriplet) :
    (relationGroups triplets).foldr (fun p s => p.2.toFinset ∪ s) ∅ =
      Finset.range triplets.length := by
  ext i
  rw [mem_foldr_groups, Finset.mem_range]
  constructor
  · rintro ⟨p, hp, hip⟩
    rw [relationGroups_mem_spec triplets hp] at hip
    exact relIndicesFrom_lt_length p.1 triplets i hip
  · intro hi
    have hget : triplets[i]? = some triplets[i] := List.getElem?_eq_getElem hi
    have hmem : i ∈ relIndicesFrom 0 (triplets[i].2.1) triplets := by
      rw [mem_relIndicesFrom]
      exact ⟨Nat.zero_le i, triplets[i], by simp [hget], rfl⟩
    have hne : relIndicesFrom 0 (triplets[i].2.1) triplets ≠ [] := by
      intro hcon
      rw [hcon] at hmem
      simp at hmem
    rcases relationGroups_exists triplets _ hne with ⟨p, hp, _, hp2⟩
    exact ⟨p, hp, by rw [hp2]; exact hmem⟩

lemma phase1_partition (shuffle : List Nat → List Nat)
    (hperm : ∀ l, List.Perm (shuffle l) l) (triplets : List StrTriplet) :
    (phase1 shuffle (relationGroups triplets)).1 ∪
        (phase1 shuffle (relationGroups triplets)).2.1 ∪
        (phase1 shuffle (relationGroups triplets)).2.2 =
      Finset.range triplets.length ∧
    Disjoint (phase1 shuffle (relationGroups triplets)).1
      (phase1 shuffle (relationGroups triplets)).2.1 ∧
    Disjoint (phase1 shuffle (relationGroups triplets)).1
      (phase1 shuffle (relationGroups triplets)).2.2 ∧
    Disjoint (phase1 shuffle (relationGroups triplets)).2.1
      (phase1 shuffle (relationGroups triplets)).2.2 := by
  have h := phase1_fold_partition shuffle hperm (relationGroups triplets) ∅ ∅ ∅
    (relationGroups_nodup triplets) (relationGroups_pairwise triplets)
    (by intro p hp i hip; simp)
    (Finset.disjoint_empty_left ∅) (Finset.disjoint_empty_left ∅)
    (Finset.disjoint_empty_left ∅)
  rcases h with ⟨hu, h1, h2, h3⟩
  unfold phase1
  refine ⟨?_, h1, h2, h3⟩
  rw [hu, relationGroups_cover]
  simp

lemma shuffle_nil_eq {shuffle : List Nat → List Nat}
    (hperm : ∀ l, List.Perm (shuffle l) l) : shuffle [] = [] :=
  List.eq_nil_of_length_eq_zero ((hperm []).length_eq.trans rfl)

lemma ascList_empty : ascList (∅ : Finset Nat) = [] :=
  List.eq_nil_of_length_eq_zero ((ascList_length (∅ : Finset Nat)).trans rfl)

lemma createDatasetSplits_eq_phase1 (shuffle : List Nat → List Nat)
    (hperm : ∀ l, List.Perm (shuffle l) l) (triplets : List StrTriplet)
    (hne : triplets ≠ []) (trainRatio testValidRatio : Rat) :
    createDatasetSplits shuffle triplets trainRatio testValidRatio =
      some ⟨(phase1 shuffle (relationGroups triplets)).1,
            (phase1 shuffle (relationGroups triplets)).2.1,
            (phase1 shuffle (relationGroups triplets)).2.2,
            tripletsAt triplets (phase1 shuffle (relationGroups triplets)).1,
            tripletsAt triplets (phase1 shuffle (relationGroups triplets)).2.1,
            tripletsAt triplets (phase1 shuffle (relationGroups triplets)).2.2⟩ := by
  have hcover := (phase1_partition shuffle hperm triplets).1
  rcases triplets with _ | ⟨t0, ts⟩
  · exact absurd rfl hne
  · have hrem : Finset.range (t0 :: ts).length \
        ((phase1 shuffle (relationGroups (t0 :: ts))).1 ∪
          (phase1 shuffle (relationGroups (t0 :: ts))).2.1 ∪
          (phase1 shuffle (relationGroups (t0 :: ts))).2.2) = ∅ := by
      rw [hcover]
      exact Finset.sdiff_self _
    simp only [createDatasetSplits]
    rw [hrem, ascList_empty, shuffle_nil_eq hperm]
    simp only [List.take_nil, List.drop_nil, List.toFinset_nil, Finset.union_empty,
      ite_self, ne_eq, not_true_eq_false, and_false, if_false]

lemma filterMap_getElem_length (triplets : List StrTriplet) :
    ∀ (ls : List Nat), (∀ i ∈ ls, i < triplets.length) →
      (ls.filterMap (fun i => triplets[i]?)).length = ls.length := by
  intro ls
  induction ls with
  | nil => intro h; simp
  | cons a t ih =>
    intro h
    rw [List.filterMap_cons]
    rw [List.getElem?_eq_getElem (h a (List.mem_cons_self _ _))]
    simp only [List.length_cons]
    rw [ih (fun i hi => h i (List.mem_cons_of_mem _ hi))]

lemma tripletsAt_length (triplets : List StrTriplet) (s : Finset Nat)
    (h : ∀ i ∈ s, i < triplets.length) :
    (tripletsAt triplets s).length = s.card := by
  unfold tripletsAt
  rw [filterMap_getElem_length triplets (ascList s)
    (fun i hi => h i (ascList_mem.mp hi))]
  exact ascList_length s

/-- C1 (counterexample): on the empty triplet list `create_dataset_splits`
raises `IndexError` while logging `triplets[0]` (line 428) and produces no
split assignment at all, so the partition property cannot hold for every
input list. -/
theorem dataset_splits_empty_counterexample :
    createDatasetSplits (fun l => l) [] (4 / 5) (1 / 2) = none := rfl

/-- C1 (amended): for every nonempty triplet list, every ratio pair and
every shuffle that permutes its input, `create_dataset_splits` produces a
split assignment that partitions the triplet indices: the three index
sets are pairwise disjoint, their union is the full index range, and the
three emitted triplet files have lengths summing to the input length. -/
theorem dataset_splits_partition (shuffle : List Nat → List Nat)
    (triplets : List StrTriplet) (trainRatio testValidRatio : Rat)
    (hperm : ∀ l, List.Perm (shuffle l) l) (hne : triplets ≠ []) :
    ∃ s, createDatasetSplits shuffle triplets trainRatio testValidRatio = some s ∧
      s.train ∪ s.test ∪ s.valid = Finset.range triplets.length ∧
      Disjoint s.train s.test ∧ Disjoint s.train s.valid ∧ Disjoint s.test s.valid ∧
      s.train.card + s.test.card + s.valid.card = triplets.length ∧
      s.trainTriplets.length + s.testTriplets.length + s.validTriplets.length =
        triplets.length := by
  rcases phase1_partition shuffle hperm triplets with ⟨hcov, hd1, hd2, hd3⟩
  refine ⟨_, createDatasetSplits_eq_phase1 shuffle hperm triplets hne trainRatio
    testValidRatio, hcov, hd1, hd2, hd3, ?_, ?_⟩
  · have hd12 : Disjoint ((phase1 shuffle (relationGroups triplets)).1 ∪
        (phase1 shuffle (relationGroups triplets)).2.1)
        (phase1 shuffle (relationGroups triplets)).2.2 :=
      Finset.disjoint_union_left.mpr ⟨hd2, hd3⟩
    have hcard : ((phase1 shuffle (relationGroups triplets)).1 ∪
        (phase1 shuffle (relationGroups triplets)).2.1 ∪
        (phase1 shuffle (relationGroups triplets)).2.2).card = triplets.length := by
      rw [hcov, Finset.card_range]
    rw [Finset.card_union_of_disjoint hd12, Finset.card_union_of_disjoint hd1] at hcard
    exact hcard
  · have hbound : ∀ x ∈ (phase1 shuffle (relationGroups triplets)).1 ∪
        (phase1 shuffle (relationGroups triplets)).2.1 ∪
        (phase1 shuffle (relationGroups triplets)).2.2, x < triplets.length := by
      intro x hx
      rw [hcov, Finset.mem_range] at hx
      exact hx
    have hb1 : ∀ i ∈ (phase1 shuffle (relationGroups triplets)).1,
        i < triplets.length := fun i hi =>
      hbound i (Finset.mem_union_left _ (Finset.mem_union_left _ hi))
    have hb2 : ∀ i ∈ (phase1 shuffle (relationGroups triplets)).2.1,
        i < triplets.length := fun i hi =>
      hbound i (Finset.mem_union_left _ (Finset.mem_union_right _ hi))
    have hb3 : ∀ i ∈ (phase1 shuffle (relationGroups triplets)).2.2,
        i < triplets.length := fun i hi => hbound i (Finset.mem_union_right _ hi)
    simp only
    rw [tripletsAt_length triplets _ hb1, tripletsAt_length triplets _ hb2,
      tripletsAt_length triplets _ hb3]
    have hd12 : Disjoint ((phase1 shuffle (relationGroups triplets)).1 ∪
        (phase1 shuffle (relationGroups triplets)).2.1)
        (phase1 shuffle (relationGroups triplets)).2.2 :=
      Finset.disjoint_union_left.mpr ⟨hd2, hd3⟩
    have hcard : ((phase1 shuffle (relationGroups triplets)).1 ∪
        (phase1 shuffle (relationGroups triplets)).2.1 ∪
        (phase1 shuffle (relationGroups triplets)).2.2).card = triplets.length := by
      rw [hcov, Finset.card_range]
    rw [Finset.card_union_of_disjoint hd12, Finset.card_union_of_disjoint hd1] at hcard
    exact hcard

theorem dataset_splits_partition_witness :
    wSplit.train ∪ wSplit.test ∪ wSplit.valid = Finset.range wTriplets.length ∧
    Disjoint wSplit.train wSplit.test ∧ Disjoint wSplit.train wSplit.valid ∧
    Disjoint wSplit.test wSplit.valid ∧
    wSplit.train.card + wSplit.test.card + wSplit.valid.card = wTriplets.length ∧
    wSplit.trainTriplets.length + wSplit.testTriplets.length +
      wSplit.validTriplets.length = wTriplets.length := by
  obtain ⟨s, hs, h1, h2, h3, h4, h5, h6⟩ := dataset_splits_partition (fun l => l)
    wTriplets (4 / 5) (1 / 2) (fun l => List.Perm.refl l) (by decide)
  have heq : createDatasetSplits (fun l => l) wTriplets (4 / 5) (1 / 2) =
      some wSplit :=
    createDatasetSplits_eq_phase1 (fun l => l) (fun l => List.Perm.refl l)
      wTriplets (by decide) (4 / 5) (1 / 2)
  rw [hs] at heq
  have hw : wSplit = s := (Option.some.inj heq).symm
  rw [hw]
  exact ⟨h1, h2, h3, h4, h5, h6⟩

lemma relAtIs_of_mem {triplets : List StrTriplet} {r : RelId} {i : Nat}
    (h : i ∈ relIndicesFrom 0 r triplets) : relAtIs triplets r i = true := by
  rcases (mem_relIndicesFrom r triplets 0 i).mp h with ⟨_, t, hget, hrel⟩
  rw [Nat.sub_zero] at hget
  unfold relAtIs
  rw [hget]
  simp [hrel]

/-- C7: a relation occurring at least `min_examples_per_split * 3` (= 9)
times has the first `min_examples_per_split` shuffled indices of its
occurrence list placed in validation, the next `min_examples_per_split`
in test and the remainder in train, so each split ends up with at least
`min_examples_per_split` triplets of that relation; a relation with fewer
occurrences has all its triplets placed in train. -/
theorem relation_min_coverage_splits (shuffle : List Nat → List Nat)
    (triplets : List StrTriplet) (trainRatio testValidRatio : Rat) (r : RelId)
    (s : SplitResult) (hperm : ∀ l, List.Perm (shuffle l) l)
    (hs : createDatasetSplits shuffle triplets trainRatio testValidRatio = some s) :
    (minExamplesPerSplit * 3 ≤ countRel triplets r →
      (∀ i ∈ (shuffle (relIndicesFrom 0 r triplets)).take minExamplesPerSplit,
        i ∈ s.valid) ∧
      (∀ i ∈ ((shuffle (relIndicesFrom 0 r triplets)).drop minExamplesPerSplit).take
          minExamplesPerSplit, i ∈ s.test) ∧
      (∀ i ∈ (shuffle (relIndicesFrom 0 r triplets)).drop (minExamplesPerSplit * 2),
        i ∈ s.train) ∧
      minExamplesPerSplit ≤ (s.valid.filter (fun i => relAtIs triplets r i)).card ∧
      minExamplesPerSplit ≤ (s.test.filter (fun i => relAtIs triplets r i)).card ∧
      minExamplesPerSplit ≤ (s.train.filter (fun i => relAtIs triplets r i)).card) ∧
    (countRel triplets r < minExamplesPerSplit * 3 →
      ∀ i ∈ relIndicesFrom 0 r triplets, i ∈ s.train) := by
  have hne : triplets ≠ [] := by
    intro hcon
    subst hcon
    cases hs
  have heq := createDatasetSplits_eq_phase1 shuffle hperm triplets hne trainRatio
    testValidRatio
  rw [hs] at heq
  have hseq := Option.some.inj heq
  have htr : s.train = (phase1 shuffle (relationGroups triplets)).1 := by rw [hseq]
  have hte : s.test = (phase1 shuffle (relationGroups triplets)).2.1 := by rw [hseq]
  have hva : s.valid = (phase1 shuffle (relationGroups triplets)).2.2 := by rw [hseq]
  constructor
  · intro hge
    have hlenpos : relIndicesFrom 0 r triplets ≠ [] := by
      apply List.ne_nil_of_length_pos
      rw [relIndicesFrom_length]
      unfold minExamplesPerSplit at hge
      omega
    obtain ⟨p, hp, hp1, hp2⟩ := relationGroups_exists triplets r hlenpos
    have hplen : ¬ p.2.length < minExamplesPerSplit * 3 := by
      rw [hp2, relIndicesFrom_length]
      omega
    have hmem3 := phase1_fold_mem_ge shuffle (relationGroups triplets) (∅, ∅, ∅) p hp hplen
    rw [hp2] at hmem3
    rcases hmem3 with ⟨hva3, hte3, htr3⟩
    have hndsh : (shuffle (relIndicesFrom 0 r triplets)).Nodup :=
      (hperm _).symm.nodup (relIndicesFrom_nodup r triplets 0)
    have hlensh : (shuffle (relIndicesFrom 0 r triplets)).length = countRel triplets r :=
      (hperm _).length_eq.trans (relIndicesFrom_length r triplets 0)
    have hmemsh : ∀ i ∈ shuffle (relIndicesFrom 0 r triplets),
        relAtIs triplets r i = true := by
      intro i hi
      exact relAtIs_of_mem ((hperm _).mem_iff.mp hi)
    have hcardOf : ∀ (part : Finset Nat) (slice : List Nat),
        slice.Sublist (shuffle (relIndicesFrom 0 r triplets)) →
        (∀ i ∈ slice, i ∈ part) → slice.length ≤
          (part.filter (fun i => relAtIs triplets r i)).card := by
      intro part slice hsub hin
      have hndsl : slice.Nodup := hsub.nodup hndsh
      have hsubset : slice.toFinset ⊆ part.filter (fun i => relAtIs triplets r i) := by
        intro x hx
        rw [List.mem_toFinset] at hx
        rw [Finset.mem_filter]
        exact ⟨hin x hx, by simpa using hmemsh x (hsub.mem hx)⟩
      calc slice.length = slice.toFinset.card := (List.toFinset_card_of_nodup hndsl).symm
        _ ≤ _ := Finset.card_le_card hsubset
    refine ⟨fun i hi => hva ▸ hva3 i hi, fun i hi => hte ▸ hte3 i hi,
      fun i hi => htr ▸ htr3 i hi, ?_, ?_, ?_⟩
    · have := hcardOf s.valid ((shuffle (relIndicesFrom 0 r triplets)).take
          minExamplesPerSplit) (List.take_sublist _ _) (fun i hi => hva ▸ hva3 i hi)
      rw [List.length_take] at this
      refine le_trans ?_ this
      rw [hlensh]
      unfold minExamplesPerSplit at hge ⊢
      omega
    · have := hcardOf s.test (((shuffle (relIndicesFrom 0 r triplets)).drop
          minExamplesPerSplit).take minExamplesPerSplit)
        ((List.take_sublist _ _).trans (List.drop_sublist _ _))
        (fun i hi => hte ▸ hte3 i hi)
      rw [List.length_take, List.length_drop] at this
      refine le_trans ?_ this
      rw [hlensh]
      unfold minExamplesPerSplit at hge ⊢
      omega
    · have := hcardOf s.train ((shuffle (relIndicesFrom 0 r triplets)).drop
          (minExamplesPerSplit * 2)) (List.drop_sublist _ _)
        (fun i hi => htr ▸ htr3 i hi)
      rw [List.length_drop] at this
      refine le_trans ?_ this
      rw [hlensh]
      unfold minExamplesPerSplit at hge ⊢
      omega
  · intro hlt i hi
    have hlenpos : relIndicesFrom 0 r triplets ≠ [] := by
      intro hcon
      rw [hcon] at hi
      simp at hi
    obtain ⟨p, hp, hp1, hp2⟩ := relationGroups_exists triplets r hlenpos
    have hplen : p.2.length < minExamplesPerSplit * 3 := by
      rw [hp2, relIndicesFrom_length]
      omega
    have hmem := phase1_fold_mem_lt shuffle (relationGroups triplets) (∅, ∅, ∅) p hp
      hplen i (by rw [hp2]; exact hi)
    rw [htr]
    exact hmem

theorem relation_min_coverage_splits_witness :
    (minExamplesPerSplit * 3 ≤ countRel wTriplets "P1") ∧
    (countRel wTriplets "P2" < minExamplesPerSplit * 3) ∧
    ((∀ i ∈ ((fun l => l) (relIndicesFrom 0 "P1" wTriplets)).take minExamplesPerSplit,
        i ∈ wSplit.valid) ∧
     (∀ i ∈ (((fun l => l) (relIndicesFrom 0 "P1" wTriplets)).drop
          minExamplesPerSplit).take minExamplesPerSplit, i ∈ wSplit.test) ∧
     (∀ i ∈ ((fun l => l) (relIndicesFrom 0 "P1" wTriplets)).drop
          (minExamplesPerSplit * 2), i ∈ wSplit.train) ∧
     minExamplesPerSplit ≤ (wSplit.valid.filter (fun i => relAtIs wTriplets "P1" i)).card ∧
     minExamplesPerSplit ≤ (wSplit.test.filter (fun i => relAtIs wTriplets "P1" i)).card ∧
     minExamplesPerSplit ≤ (wSplit.train.filter (fun i => relAtIs wTriplets "P1" i)).card) ∧
    (∀ i ∈ relIndicesFrom 0 "P2" wTriplets, i ∈ wSplit.train) :=
  ⟨by decide, by decide,
   (relation_min_coverage_splits (fun l => l) wTriplets (4 / 5) (1 / 2) "P1" wSplit
      (fun l => List.Perm.refl l)
      (createDatasetSplits_eq_phase1 (fun l => l) (fun l => List.Perm.refl l)
        wTriplets (by decide) (4 / 5) (1 / 2))).1 (by decide),
   (relation_min_coverage_splits (fun l => l) wTriplets (4 / 5) (1 / 2) "P2" wSplit
      (fun l => List.Perm.refl l)
      (createDatasetSplits_eq_phase1 (fun l => l) (fun l => List.Perm.refl l)
        wTriplets (by decide) (4 / 5) (1 / 2))).2 (by decide)⟩
